import Mathlib

/-!
# Verification of the capyg paint-by-numbers pipeline

Shallow embedding of `src/services/processor.ts` (color quantization, pixel
labeling, connected-component region extraction, boundary tracing, label
placement, pipeline assembly) together with the data model of `src/types.ts`.

Embedding conventions:
* The flat RGBA `Uint8ClampedArray` (stride-4 iteration in the source) is
  embedded as a `List RGBA` of pixels; `data[i] .. data[i+3]` corresponds to
  the pixel at index `i / 4`.
* `Math.random()`-driven choices are passed in explicitly as `rand : Nat → Nat`
  giving, for the i-th draw, the chosen pixel index
  (the source computes `Math.floor(Math.random() * (data.length / 4))`).
* `colorDistance` in the source is `Math.sqrt` of the sum of squared channel
  differences and is used only in strict `<` comparisons; since `Math.sqrt` is
  strictly monotone on nonnegative reals, comparisons of distances coincide
  with comparisons of the squared distances, which we use (`colorDist2`).
* `Math.round(sum/count)` on nonnegative integers `sum`, `count` equals
  `⌊sum/count + 1/2⌋ = (2*sum + count) / (2*count)` in exact arithmetic; for the
  magnitudes occurring here (sums of bytes over at most a screenful of pixels)
  double-precision evaluation agrees with the exact value.
* Label points (`calculateLabelPoint`) are embedded over `ℚ` instead of IEEE
  doubles; no claim depends on their numeric values.
-/

namespace Capyg

/-- `RGB` of `src/types.ts`: three 0-255 integer channels. -/
structure RGB where
  r : Nat
  g : Nat
  b : Nat
deriving DecidableEq, Repr

/-- One decoded RGBA pixel (four consecutive bytes of the source's flat array). -/
structure RGBA where
  r : Nat
  g : Nat
  b : Nat
  a : Nat
deriving DecidableEq, Repr

/-- The RGB channels of a pixel, as read by the source (`data[i..i+2]`). -/
def RGBA.rgb (px : RGBA) : RGB := ⟨px.r, px.g, px.b⟩

/-- `PaletteColor` of `src/types.ts` (RGB + id + hex + usage count), flattened. -/
structure PaletteColor where
  r : Nat
  g : Nat
  b : Nat
  id : Nat
  hex : String
  count : Nat
deriving DecidableEq, Repr

/-- Default palette entry used for (never-taken in the pipeline) out-of-range reads. -/
def dfltPC : PaletteColor := ⟨0, 0, 0, 0, "", 0⟩

/-- `Region` of `src/types.ts`: SVG path data, palette color id, label point, area. -/
structure Region where
  path : String
  colorId : Nat
  labelPointX : ℚ
  labelPointY : ℚ
  area : Nat
deriving DecidableEq, Repr

/-- `ProcessedArt` of `src/types.ts`. -/
structure ProcessedArt where
  width : Nat
  height : Nat
  palette : List PaletteColor
  regions : List Region
  originalUrl : String
deriving DecidableEq, Repr

/-! ## Color math helpers (processor.ts lines 5-13) -/

/-- One lowercase hexadecimal digit, as produced by JS `Number.toString(16)`. -/
def hexDigit (n : Nat) : Char :=
  if n < 10 then Char.ofNat (48 + n) else Char.ofNat (87 + n)

/-- Two-digit lowercase hex rendering of a byte. -/
def byteToHex (n : Nat) : String :=
  String.mk [hexDigit (n / 16 % 16), hexDigit (n % 16)]

/-- `rgbToHex` (processor.ts line 5): `"#"` followed by six lowercase hex digits;
the source pads via `(1<<24) + (r<<16) + (g<<8) + b` and `slice(1)`, which for
byte-range channels is exactly the concatenation of the three byte renderings. -/
def rgbToHex (r g b : Nat) : String :=
  "#" ++ byteToHex r ++ byteToHex g ++ byteToHex b

/-- Squared Euclidean RGB distance. The source's `colorDistance` is the square
root of this; it is only ever compared with `<`, and `Real.sqrt` is strictly
monotone, so the squared form induces identical control flow. -/
def colorDist2 (c1 c2 : RGB) : Int :=
  ((c1.r : Int) - c2.r) ^ 2 + ((c1.g : Int) - c2.g) ^ 2 + ((c1.b : Int) - c2.b) ^ 2

/-! ## K-means quantizer (processor.ts lines 17-77) -/

/-- Accumulator of the argmin loop (processor.ts lines 44-53):
`minDist` (`none` embeds the initial `Infinity`), current best cluster index,
and the running loop index `j`. -/
def nearGo (p : RGB) : List RGB → Option Int × Nat × Nat → Option Int × Nat × Nat
  | [], acc => acc
  | c :: rest, (minD, best, j) =>
    let d := colorDist2 p c
    match minD with
    | none => nearGo p rest (some d, j, j + 1)
    | some m => if d < m then nearGo p rest (some d, j, j + 1)
               else nearGo p rest (some m, best, j + 1)

/-- Index of the nearest centroid (processor.ts lines 44-53): first index
attaining the minimum squared distance (`dist < minDist` keeps the earliest). -/
def nearestIdx (p : RGB) (cents : List RGB) : Nat :=
  (nearGo p cents (none, 0, 0)).2.1

/-- Per-cluster channel sums and count (processor.ts line 36). -/
structure ClusterSum where
  r : Nat
  g : Nat
  b : Nat
  count : Nat
deriving DecidableEq, Repr

/-- Zero accumulator. -/
def zeroSum : ClusterSum := ⟨0, 0, 0, 0⟩

/-- Assignment phase of one k-means pass (processor.ts lines 39-59): every
pixel with alpha ≥ 128 contributes its channels to the sums of its nearest
centroid; transparent pixels (`data[i+3] < 128`) are skipped. -/
def assignPass (data : List RGBA) (cents : List RGB) : List ClusterSum :=
  data.foldl
    (fun sums px =>
      if px.a < 128 then sums
      else
        let j := nearestIdx px.rgb cents
        let s := sums.getD j zeroSum
        sums.set j ⟨s.r + px.r, s.g + px.g, s.b + px.b, s.count + 1⟩)
    (cents.map fun _ => zeroSum)

/-- JS `Math.round (num / den)` for nonnegative integers: round half up. -/
def jsRound (num den : Nat) : Nat := (2 * num + den) / (2 * den)

/-- Centroid update (processor.ts lines 62-68): a centroid with at least one
assigned pixel becomes the rounded per-channel mean; one with no assigned
pixels keeps its previous value. -/
def updateCentroids (cents : List RGB) (sums : List ClusterSum) : List RGB :=
  (List.range cents.length).map fun j =>
    let s := sums.getD j zeroSum
    if s.count > 0 then ⟨jsRound s.r s.count, jsRound s.g s.count, jsRound s.b s.count⟩
    else cents.getD j ⟨0, 0, 0⟩

/-- One full k-means pass (processor.ts lines 35-69). -/
def kmeansStep (data : List RGBA) (cents : List RGB) : List RGB :=
  updateCentroids cents (assignPass data cents)

/-- `iterations` (processor.ts line 34): fixed pass count. -/
def quantIterations : Nat := 5

/-- The refinement loop (processor.ts lines 35-69): `quantIterations` passes. -/
def refineCentroids (data : List RGBA) (cents0 : List RGB) : List RGB :=
  (List.range quantIterations).foldl (fun cs _ => kmeansStep data cs) cents0

/-- Centroid initialization (processor.ts lines 24-31): the i-th centroid is
the RGB of the pixel at index `rand i` (the i-th `Math.random` draw, already
scaled to a pixel index). No alpha test is performed. -/
def initCentroids (data : List RGBA) (k : Nat) (rand : Nat → Nat) : List RGB :=
  (List.range k).map fun i =>
    let px := data.getD (rand i) ⟨0, 0, 0, 0⟩
    px.rgb

/-- `getQuantizedPalette` (processor.ts lines 17-77): init, refine, then wrap
each centroid as a `PaletteColor` with 1-based sequential id, hex string and
zero usage count. -/
def getQuantizedPalette (data : List RGBA) (k : Nat) (rand : Nat → Nat) :
    List PaletteColor :=
  let cents := refineCentroids data (initCentroids data k rand)
  cents.enum.map fun ic =>
    ⟨ic.2.r, ic.2.g, ic.2.b, ic.1 + 1, rgbToHex ic.2.r ic.2.g ic.2.b, 0⟩

/-! ## Pixel labeling (processor.ts lines 126-143) -/

/-- The RGB view of a palette entry, as read by `colorDistance(p, palette[j])`. -/
def PaletteColor.rgb (c : PaletteColor) : RGB := ⟨c.r, c.g, c.b⟩

/-- `pixelLabels` (processor.ts lines 126-143): `-1` for transparent pixels
(alpha < 128), else the first index of a nearest palette color (same loop shape
as the quantizer's assignment). -/
def computeLabels (data : List RGBA) (palette : List PaletteColor) : List Int :=
  data.map fun px =>
    if px.a < 128 then (-1 : Int)
    else (nearestIdx px.rgb (palette.map PaletteColor.rgb) : Int)

/-! ## Boundary tracing (processor.ts `traceRegionBoundary`, lines 229-368)

Only the final scanline loop (lines 340-365) contributes to the returned path;
the earlier run-length sketch (lines 272-303) writes to an unused string and
the Moore-tracing scaffolding is dead code, so neither is embedded. -/

/-- A unit grid edge, as one `M x1,y1 L x2,y2` segment of the path string. -/
abbrev Edge := (Nat × Nat) × (Nat × Nat)

/-- Bounding box of a pixel list (processor.ts lines 261-269); fields are
`(minBx, maxBx, minBy, maxBy)`, initialized to `(width, 0, height, 0)`. -/
def boundingBox (pixels : List Nat) (width height : Nat) :
    Nat × Nat × Nat × Nat :=
  pixels.foldl
    (fun bb p =>
      let x := p % width
      let y := p / width
      let bb1 := if x < bb.1 then (x, bb.2.1, bb.2.2.1, bb.2.2.2) else bb
      let bb2 := if x > bb1.2.1 then (bb1.1, x, bb1.2.2.1, bb1.2.2.2) else bb1
      let bb3 := if y < bb2.2.2.1 then (bb2.1, bb2.2.1, y, bb2.2.2.2) else bb2
      if y > bb3.2.2.2 then (bb3.1, bb3.2.1, bb3.2.2.1, y) else bb3)
    (width, 0, height, 0)

/-- The (up to four) edges emitted for one pixel of the region (processor.ts
lines 345-363), in source order top, bottom, left, right.  A side's edge is
emitted when the corresponding neighbor is outside the image bounds or not in
the region's pixel set.  The short-circuit `y === 0 ||` (etc.) guards make the
truncated-subtraction index irrelevant when the bound test fires, exactly as in
the source. -/
def pixelEdges (pixelSet : List Nat) (width height x y : Nat) : List Edge :=
  (if y == 0 || !(pixelSet.contains ((y - 1) * width + x)) then
      [((x, y), (x + 1, y))] else []) ++
  (if y == height - 1 || !(pixelSet.contains ((y + 1) * width + x)) then
      [((x, y + 1), (x + 1, y + 1))] else []) ++
  (if x == 0 || !(pixelSet.contains (y * width + x - 1)) then
      [((x, y), (x, y + 1))] else []) ++
  (if x == width - 1 || !(pixelSet.contains (y * width + x + 1)) then
      [((x + 1, y), (x + 1, y + 1))] else [])

/-- The scanline edge-emission loop (processor.ts lines 340-365), as the list
of emitted unit edges in emission order. -/
def traceRegionBoundaryEdges (pixels : List Nat) (width height : Nat) :
    List Edge :=
  let bb := boundingBox pixels width height
  (List.range' bb.2.2.1 (bb.2.2.2 + 1 - bb.2.2.1)).flatMap fun y =>
    (List.range' bb.1 (bb.2.1 + 1 - bb.1)).flatMap fun x =>
      if pixels.contains (y * width + x) then pixelEdges pixels width height x y
      else []

/-- Rendering of one edge into the path string (`M${x},${y}L${x'},${y'} `). -/
def edgeToString (e : Edge) : String :=
  "M" ++ toString e.1.1 ++ "," ++ toString e.1.2 ++
  "L" ++ toString e.2.1 ++ "," ++ toString e.2.2 ++ " "

/-- `traceRegionBoundary` (processor.ts lines 229-368): the path string built
by appending one segment per emitted edge.  (The source also receives unused
`startX`/`startY` hints, dropped here.) -/
def traceRegionBoundary (pixels : List Nat) (width height : Nat) : String :=
  String.join ((traceRegionBoundaryEdges pixels width height).map edgeToString)

/-- `calculateLabelPoint` (processor.ts lines 370-381): mean pixel coordinates
plus one half, over exact rationals. -/
def calculateLabelPoint (pixels : List Nat) (width : Nat) : ℚ × ℚ :=
  let sx := pixels.foldl (fun s p => s + p % width) 0
  let sy := pixels.foldl (fun s p => s + p / width) 0
  ((sx : ℚ) / (pixels.length : ℚ) + 1/2, (sy : ℚ) / (pixels.length : ℚ) + 1/2)

/-! ## Region extraction (processor.ts lines 145-212) -/

/-- The neighbor direction vectors `dx = [1,-1,0,0]`, `dy = [0,0,1,-1]`
(processor.ts lines 151-152), paired per direction index. -/
def dirs : List (Int × Int) := [(1, 0), (-1, 0), (0, 1), (0, -1)]

/-- State of the BFS flood fill (processor.ts lines 160-184).  In the source,
`queue` and `currentRegionPixels` start as `[idx]` and receive exactly the same
pushes, so they stay equal; both are carried to mirror the source. -/
structure BfsState where
  visited : Nat → Bool
  queue : List Nat
  pixels : List Nat
  head : Nat

/-- Processing of one direction for the current pixel (processor.ts lines
171-183): bounds test, then visit-and-push when unvisited and same-label. -/
def tryNeighbor (labels : Nat → Int) (width height : Nat) (colorIdx : Int)
    (cx cy : Nat) (d : Int × Int) (s : BfsState) : BfsState :=
  let nx : Int := (cx : Int) + d.1
  let ny : Int := (cy : Int) + d.2
  if 0 ≤ nx ∧ nx < (width : Int) ∧ 0 ≤ ny ∧ ny < (height : Int) then
    let nIdx := ny.toNat * width + nx.toNat
    if s.visited nIdx = false ∧ labels nIdx = colorIdx then
      { s with
        visited := fun i => if i = nIdx then true else s.visited i
        queue := s.queue ++ [nIdx]
        pixels := s.pixels ++ [nIdx] }
    else s
  else s

/-- One iteration of the BFS while-loop body (processor.ts lines 166-184):
pop `queue[head]` (incrementing `head`), then try the four neighbors. -/
def bfsProcess (labels : Nat → Int) (width height : Nat) (colorIdx : Int)
    (s : BfsState) : BfsState :=
  match s.queue.get? s.head with
  | none => s
  | some currIdx =>
    let cx := currIdx % width
    let cy := currIdx / width
    dirs.foldl (fun st d => tryNeighbor labels width height colorIdx cx cy d st)
      { s with head := s.head + 1 }

/-- The BFS while-loop (`while (head < queue.length)`, processor.ts line 166),
run on explicit fuel; `width * height + 1` fuel always suffices (proved below). -/
def bfsLoop (labels : Nat → Int) (width height : Nat) (colorIdx : Int) :
    Nat → BfsState → BfsState
  | 0, s => s
  | fuel + 1, s =>
    if s.head < s.queue.length then
      bfsLoop labels width height colorIdx fuel
        (bfsProcess labels width height colorIdx s)
    else s

/-- The neighbor candidate of pixel `p` in direction `d`: the bounds test and
index arithmetic of one BFS iteration (processor.ts lines 172-176). -/
def nbrCand (width height : Nat) (p : Nat) (d : Int × Int) : Option Nat :=
  let nx : Int := ((p % width : Nat) : Int) + d.1
  let ny : Int := ((p / width : Nat) : Int) + d.2
  if 0 ≤ nx ∧ nx < (width : Int) ∧ 0 ≤ ny ∧ ny < (height : Int) then
    some (ny.toNat * width + nx.toNat)
  else none

/-- The in-bounds neighbors of a pixel, as generated by one BFS iteration
(processor.ts lines 171-176). -/
def neighborsOf (width height : Nat) (p : Nat) : List Nat :=
  dirs.filterMap (nbrCand width height p)

/-- Same-label 4-connectivity: `Reach labels width height s q` says pixel `q`
belongs to the connected component of seed `s` — reachable through pixels
whose labels equal `labels s`, with adjacency as generated by the BFS. -/
inductive Reach (labels : Nat → Int) (width height : Nat) (s : Nat) : Nat → Prop
  | refl : Reach labels width height s s
  | step {p q : Nat} : Reach labels width height s p →
      q ∈ neighborsOf width height p → labels q = labels s →
      Reach labels width height s q

/-- Invariant of the BFS flood-fill loop, relative to the visitation bitmap
`vis0` holding at region start, the seed pixel and the component label `ci`:
the visited set is exactly `vis0` plus the queue; queue entries carry label
`ci`, lie in the image, were unvisited at region start, and are reachable from
the seed; entries before `head` have had their same-label neighbors visited;
and the collected pixel list coincides with the queue. -/
def BfsInv (labels : Nat → Int) (width height : Nat) (ci : Int)
    (vis0 : Nat → Bool) (seed : Nat) (s : BfsState) : Prop :=
  (∀ p, s.visited p = true ↔ (vis0 p = true ∨ p ∈ s.queue)) ∧
  (∀ p ∈ s.queue, labels p = ci) ∧
  (∀ p ∈ s.queue, p < width * height) ∧
  (∀ p ∈ s.queue, vis0 p = false) ∧
  s.head ≤ s.queue.length ∧
  s.queue.head? = some seed ∧
  (∀ i, i < s.head → ∀ q ∈ neighborsOf width height (s.queue.getD i 0),
    labels q = ci → s.visited q = true) ∧
  (∀ p ∈ s.queue, Reach labels width height seed p) ∧
  s.pixels = s.queue

/-- Number of unvisited in-image pixels; strictly decreases along the BFS. -/
def uCount (width height : Nat) (vis : Nat → Bool) : Nat :=
  ((List.range (width * height)).filter fun i => !vis i).length

/-- One extracted region, before projection into the output `Region`:
the constructed record plus the flood fill's pixel list and the palette index
`colorIdx` it was charged to (locals of the source's scan body). -/
structure RegionRec where
  region : Region
  pixels : List Nat
  cIdx : Nat
deriving DecidableEq

/-- State of the raster scan (processor.ts lines 146-212): the shared
visitation bitmap, the palette (whose `count` fields the scan mutates), and
the regions emitted so far. -/
structure ScanState where
  visited : Nat → Bool
  palette : List PaletteColor
  regions : List RegionRec

/-- Body of the raster scan for one linear index (processor.ts lines 156-211):
skip visited or sentinel pixels; otherwise flood-fill, then either drop the
component (below `minArea`) or emit a region and bump the color's usage count. -/
def scanStep (labels : Nat → Int) (width height minArea : Nat)
    (st : ScanState) (idx : Nat) : ScanState :=
  if st.visited idx = true ∨ labels idx = -1 then st
  else
    let colorIdx := labels idx
    let s0 : BfsState :=
      { visited := fun i => if i = idx then true else st.visited i
        queue := [idx], pixels := [idx], head := 0 }
    let s1 := bfsLoop labels width height colorIdx (width * height + 1) s0
    if s1.pixels.length < minArea then { st with visited := s1.visited }
    else
      let cIdx := colorIdx.toNat
      let pc := st.palette.getD cIdx dfltPC
      let lp := calculateLabelPoint s1.pixels width
      let region : Region :=
        { path := traceRegionBoundary s1.pixels width height
          colorId := pc.id
          labelPointX := lp.1
          labelPointY := lp.2
          area := s1.pixels.length }
      { visited := s1.visited
        palette := st.palette.set cIdx { pc with count := pc.count + 1 }
        regions := st.regions ++ [⟨region, s1.pixels, cIdx⟩] }

/-- Invariant of the raster extraction scan after the indices `< n` have been
processed: the visited set is closed under same-label adjacency; processed
indices are visited or sentinel; every emitted region records its flood fill
faithfully (seed at the head of its pixel list, pixel set equal to the seed's
connected component, seed minimal in it, all pixels visited and same-label,
area and color bookkeeping as in the source); region seeds are strictly
increasing; region pixel sets are pairwise disjoint; and the palette differs
from the initial one only by the usage counts, which count emitted regions. -/
def ScanInv (labels : Nat → Int) (width height minArea : Nat)
    (pal0 : List PaletteColor) (n : Nat) (st : ScanState) : Prop :=
  (∀ p q, st.visited p = true → q ∈ neighborsOf width height p →
    labels q = labels p → st.visited q = true) ∧
  (∀ j < n, st.visited j = true ∨ labels j = -1) ∧
  (∀ rec ∈ st.regions, ∃ seed,
    rec.pixels.head? = some seed ∧ seed < n ∧ labels seed ≠ -1 ∧
    (∀ q, q ∈ rec.pixels ↔ Reach labels width height seed q) ∧
    (∀ q ∈ rec.pixels, seed ≤ q) ∧
    (∀ q ∈ rec.pixels, st.visited q = true) ∧
    (∀ q ∈ rec.pixels, labels q = labels seed) ∧
    rec.cIdx = (labels seed).toNat ∧
    rec.region.colorId = (pal0.getD rec.cIdx dfltPC).id ∧
    rec.region.area = rec.pixels.length ∧ minArea ≤ rec.pixels.length) ∧
  (∀ rec ∈ st.regions, rec.pixels.headD 0 < n) ∧
  st.regions.Pairwise (fun a b => a.pixels.headD 0 < b.pixels.headD 0) ∧
  st.regions.Pairwise (fun a b => ∀ p ∈ a.pixels, p ∉ b.pixels) ∧
  st.palette.length = pal0.length ∧
  (∀ j < pal0.length,
    (st.palette.getD j dfltPC).id = (pal0.getD j dfltPC).id ∧
    (st.palette.getD j dfltPC).r = (pal0.getD j dfltPC).r ∧
    (st.palette.getD j dfltPC).g = (pal0.getD j dfltPC).g ∧
    (st.palette.getD j dfltPC).b = (pal0.getD j dfltPC).b ∧
    (st.palette.getD j dfltPC).hex = (pal0.getD j dfltPC).hex ∧
    (st.palette.getD j dfltPC).count = (pal0.getD j dfltPC).count +
      (st.regions.filter fun rec => rec.cIdx == j).length)

/-- The double raster loop (processor.ts lines 154-155) visits exactly the
linear indices `0, 1, …, width*height - 1` in increasing order (`idx =
y*width + x`), and its body depends on `x`, `y` only through `idx`; it is
embedded as a fold over `List.range (width * height)`. -/
def extractRegions (labels : Nat → Int) (width height minArea : Nat)
    (palette : List PaletteColor) : ScanState :=
  (List.range (width * height)).foldl (scanStep labels width height minArea)
    { visited := fun _ => false, palette := palette, regions := [] }

/-- `minRegionArea` (processor.ts line 148): hardcoded speckle threshold. -/
def minRegionArea : Nat := 10

/-- The pipeline core (processor.ts lines 122-220), from the decoded pixel
buffer onward: quantize, label, extract regions with the hardcoded threshold,
then assemble `ProcessedArt` with the usage-filtered palette.  (Image decoding,
downscaling and the canvas blur, lines 86-120, are the external collaborator.) -/
def processImageCore (data : List RGBA) (width height k : Nat)
    (rand : Nat → Nat) (url : String) : ProcessedArt :=
  let palette := getQuantizedPalette data k rand
  let labels := computeLabels data palette
  let st := extractRegions (fun i => labels.getD i (-1)) width height
    minRegionArea palette
  { width := width
    height := height
    palette := st.palette.filter fun p => p.count > 0
    regions := st.regions.map RegionRec.region
    originalUrl := url }

/-! ## Concrete inputs used in counterexamples and witnesses -/

/-- A 2×1 buffer with one transparent gray pixel and one opaque red pixel. -/
def c2data : List RGBA := [⟨7, 7, 7, 0⟩, ⟨255, 0, 0, 255⟩]

/-- A draw sequence whose first draw selects pixel 0 (the transparent one). -/
def c2rand : Nat → Nat := fun _ => 0

/-- The spec §8 end-to-end example: a 4×1 buffer red, red, blue, blue. -/
def c7data : List RGBA :=
  [⟨255, 0, 0, 255⟩, ⟨255, 0, 0, 255⟩, ⟨0, 0, 255, 255⟩, ⟨0, 0, 255, 255⟩]

/-- A favourable draw sequence: first draw picks pixel 0 (red), second picks
pixel 2 (blue). -/
def c7rand : Nat → Nat := fun i => if i = 0 then 0 else 2

/-- A 2×2 label map with an L-shaped label-0 component, a sentinel pixel and a
label-1 pixel, used to instantiate the extraction theorems. -/
def wLabels : Nat → Int := fun i => [0, 0, -1, 1].getD i (-1)

end Capyg

namespace Capyg

/-! ## Theorems -/

/-- Helper: a `getD` read below the length is a member of the list. -/
theorem getD_mem_of_lt {α : Type} (l : List α) (n : Nat) (d : α)
    (h : n < l.length) : l.getD n d ∈ l := by
  rw [List.getD_eq_getElem l d h]
  exact List.getElem_mem h

/--
C2 (counterexample): on a buffer with one transparent and one opaque pixel,
the draw that selects the transparent pixel makes the initial centroid the
transparent pixel's color, which is the color of no opaque pixel; centroid
initialization (processor.ts lines 24-31) performs no alpha test.
-/
theorem initCentroids_uses_transparent_pixel :
    (∃ px ∈ c2data, px.a < 128) ∧ (∃ px ∈ c2data, 128 ≤ px.a) ∧
    ¬ ∀ c ∈ initCentroids c2data 1 c2rand,
        ∃ px ∈ c2data, 128 ≤ px.a ∧ c = px.rgb := by
  decide

/--
C2 (amended): every initial centroid is the color of some pixel of the buffer
— opaque or transparent; the selection strategy does not skip transparent
pixels.
-/
theorem initCentroids_colors_from_buffer (data : List RGBA) (k : Nat)
    (rand : Nat → Nat) (hr : ∀ i < k, rand i < data.length) :
    ∀ c ∈ initCentroids data k rand, ∃ px ∈ data, c = px.rgb := by
  intro c hc
  simp only [initCentroids, List.mem_map, List.mem_range] at hc
  obtain ⟨i, hik, rfl⟩ := hc
  exact ⟨data.getD (rand i) ⟨0, 0, 0, 0⟩, getD_mem_of_lt _ _ _ (hr i hik), rfl⟩

/-- Witness for `initCentroids_colors_from_buffer` at the concrete buffer. -/
theorem initCentroids_colors_from_buffer_witness :
    (∀ i < 1, c2rand i < c2data.length) ∧
    ∀ c ∈ initCentroids c2data 1 c2rand, ∃ px ∈ c2data, c = px.rgb :=
  ⟨by decide, initCentroids_colors_from_buffer c2data 1 c2rand (by decide)⟩

/--
C8: with the draw sequence an explicit parameter (the pseudo-random generator
abstraction required by spec §9), the pipeline core is a pure function: two
runs on equal buffers, dimensions, color counts, draw sequences and urls
produce equal palettes and equal region lists.
-/
theorem pipeline_deterministic (data1 data2 : List RGBA)
    (w1 w2 h1 h2 k1 k2 : Nat) (r1 r2 : Nat → Nat) (u1 u2 : String)
    (hdata : data1 = data2) (hw : w1 = w2) (hh : h1 = h2) (hk : k1 = k2)
    (hr : r1 = r2) (hu : u1 = u2) :
    (processImageCore data1 w1 h1 k1 r1 u1).palette
        = (processImageCore data2 w2 h2 k2 r2 u2).palette ∧
    (processImageCore data1 w1 h1 k1 r1 u1).regions
        = (processImageCore data2 w2 h2 k2 r2 u2).regions := by
  subst hdata hw hh hk hr hu
  exact ⟨rfl, rfl⟩

/-- Witness for `pipeline_deterministic` at the concrete 4×1 buffer. -/
theorem pipeline_deterministic_witness :
    (processImageCore c7data 4 1 2 c7rand "u").palette
        = (processImageCore c7data 4 1 2 c7rand "u").palette ∧
    (processImageCore c7data 4 1 2 c7rand "u").regions
        = (processImageCore c7data 4 1 2 c7rand "u").regions :=
  pipeline_deterministic c7data c7data 4 4 1 1 2 2 c7rand c7rand "u" "u"
    rfl rfl rfl rfl rfl rfl

/-- Helper: on a fully transparent buffer every label-map read is `-1`. -/
theorem computeLabels_getD_sentinel (data : List RGBA)
    (pal : List PaletteColor) (htr : ∀ px ∈ data, px.a < 128) (i : Nat) :
    (computeLabels data pal).getD i (-1) = -1 := by
  by_cases h : i < (computeLabels data pal).length
  · rw [List.getD_eq_getElem _ _ h]
    have hlen : i < data.length := by
      simpa [computeLabels] using h
    simp only [computeLabels, List.getElem_map]
    exact if_pos (htr _ (List.getElem_mem hlen))
  · exact List.getD_eq_default _ _ (Nat.le_of_not_lt h)

/-- Helper: the scan is the identity when every label is the sentinel. -/
theorem scanFold_sentinel (labels : Nat → Int) (w h m : Nat)
    (hl : ∀ i, labels i = -1) (l : List Nat) (st : ScanState) :
    l.foldl (scanStep labels w h m) st = st := by
  induction l generalizing st with
  | nil => rfl
  | cons a t ih =>
    have hstep : scanStep labels w h m st a = st := by
      unfold scanStep
      rw [if_pos (Or.inr (hl a))]
    rw [List.foldl_cons, hstep]
    exact ih st

/-- Helper: freshly quantized palette entries carry usage count zero. -/
theorem getQuantizedPalette_count_zero (data : List RGBA) (k : Nat)
    (rand : Nat → Nat) : ∀ c ∈ getQuantizedPalette data k rand, c.count = 0 := by
  intro c hc
  simp only [getQuantizedPalette, List.mem_map] at hc
  obtain ⟨ic, _, rfl⟩ := hc
  rfl

/--
C9: on a buffer whose pixels are all transparent (alpha < 128) the pipeline
core returns a valid `ProcessedArt` with the given width and height, no
regions, and an empty usage-filtered palette.
-/
theorem pipeline_fully_transparent (data : List RGBA) (w h k : Nat)
    (rand : Nat → Nat) (url : String) (htr : ∀ px ∈ data, px.a < 128) :
    processImageCore data w h k rand url =
      { width := w, height := h, palette := [], regions := [],
        originalUrl := url } := by
  have hfil : (getQuantizedPalette data k rand).filter
      (fun p => p.count > 0) = [] := by
    rw [List.filter_eq_nil_iff]
    intro c hc
    simp [getQuantizedPalette_count_zero data k rand c hc]
  simp only [processImageCore, extractRegions,
    scanFold_sentinel _ _ _ _
      (fun i => computeLabels_getD_sentinel data _ htr i), hfil,
    List.map_nil]

/-- Witness for `pipeline_fully_transparent` on a 1×1 transparent buffer. -/
theorem pipeline_fully_transparent_witness :
    (∀ px ∈ [(⟨3, 4, 5, 0⟩ : RGBA)], px.a < 128) ∧
    processImageCore [(⟨3, 4, 5, 0⟩ : RGBA)] 1 1 1 (fun _ => 0) "x" =
      { width := 1, height := 1, palette := [], regions := [],
        originalUrl := "x" } :=
  ⟨by decide,
    pipeline_fully_transparent [(⟨3, 4, 5, 0⟩ : RGBA)] 1 1 1 (fun _ => 0) "x"
      (by decide)⟩

set_option maxRecDepth 4000 in
/--
C7 (counterexample): on the spec §8 end-to-end example — the 4×1 buffer
red, red, blue, blue with K = 2, even with a favourable draw sequence seeding
one red and one blue centroid — the pipeline as implemented returns zero
regions and an empty palette, not two regions and a two-entry palette: both
connected components have area 2, below the hardcoded `minRegionArea = 10`.
-/
theorem pipeline_example_drops_small_regions :
    (processImageCore c7data 4 1 2 c7rand "url").regions.length = 0 ∧
    (processImageCore c7data 4 1 2 c7rand "url").palette = [] := by
  decide

set_option maxRecDepth 8000 in
/--
C7 (amended): with the minimum-area threshold taken as 1 (the source hardcodes
10) and a draw sequence seeding one red and one blue centroid, the pipeline
stages produce a palette of exactly the two entries red and blue, two regions
each of area 2, and the two regions share the boundary edge from (2,0) to
(2,1), i.e. the unit edge at x = 2.
-/
theorem pipeline_example_with_threshold_one :
    (let pal := getQuantizedPalette c7data 2 c7rand
     let labels := computeLabels c7data pal
     let st := extractRegions (fun i => labels.getD i (-1)) 4 1 1 pal
     (st.palette.filter fun p => p.count > 0).map
         (fun p => (p.r, p.g, p.b)) = [(255, 0, 0), (0, 0, 255)] ∧
     st.regions.length = 2 ∧
     (∀ rec ∈ st.regions, rec.region.area = 2) ∧
     (∀ rec ∈ st.regions,
        ((2, 0), (2, 1)) ∈ traceRegionBoundaryEdges rec.pixels 4 1)) := by
  decide

/-! ### Boundary tracing on rectangles (C5) -/

/-- Helper: membership test of the embedded JS `Set.has`. -/
theorem contains_iff_mem (ps : List Nat) (n : Nat) :
    ps.contains n = true ↔ n ∈ ps :=
  List.elem_iff

/-- Helper: the column of the linear index `y*width + x` when `x < width`. -/
theorem encode_mod (x y width : Nat) (hx : x < width) :
    (y * width + x) % width = x := by
  rw [Nat.add_comm, Nat.add_mul_mod_self_right, Nat.mod_eq_of_lt hx]

/-- Helper: the row of the linear index `y*width + x` when `x < width`. -/
theorem encode_div (x y width : Nat) (hx : x < width) :
    (y * width + x) / width = y := by
  rw [Nat.add_comm, Nat.add_mul_div_right _ _ (show 0 < width by omega),
    Nat.div_eq_of_lt hx, Nat.zero_add]

/-- Helper: a running minimum stays at its initial value over larger inputs. -/
theorem foldl_min_of_le {f : Nat → Nat} (l : List Nat) (a : Nat)
    (h : ∀ p ∈ l, a ≤ f p) : l.foldl (fun m p => min m (f p)) a = a := by
  induction l generalizing a with
  | nil => rfl
  | cons q t ih =>
    rw [List.foldl_cons, min_eq_left (h q (List.mem_cons_self q t))]
    exact ih a fun p hp => h p (List.mem_cons_of_mem q hp)

/-- Helper: a running minimum reaches an attained lower bound. -/
theorem foldl_min_eq_lo {f : Nat → Nat} (l : List Nat) (lo : Nat)
    (hbd : ∀ p ∈ l, lo ≤ f p) (hatt : ∃ p ∈ l, f p = lo) :
    ∀ a, lo ≤ a → l.foldl (fun m p => min m (f p)) a = lo := by
  induction l with
  | nil => obtain ⟨p, hp, _⟩ := hatt; exact absurd hp (List.not_mem_nil p)
  | cons q t ih =>
    intro a hla
    rw [List.foldl_cons]
    by_cases hqt : ∃ p ∈ t, f p = lo
    · exact ih (fun p hp => hbd p (List.mem_cons_of_mem q hp)) hqt _
        (le_min hla (hbd q (List.mem_cons_self q t)))
    · obtain ⟨p, hp, hfp⟩ := hatt
      rcases List.mem_cons.mp hp with rfl | hpt
      · rw [hfp, min_eq_right hla]
        exact foldl_min_of_le t lo fun p' hp' =>
          hbd p' (List.mem_cons_of_mem _ hp')
      · exact absurd ⟨p, hpt, hfp⟩ hqt

/-- Helper: a running maximum stays at its initial value over smaller inputs. -/
theorem foldl_max_of_le {f : Nat → Nat} (l : List Nat) (a : Nat)
    (h : ∀ p ∈ l, f p ≤ a) : l.foldl (fun m p => max m (f p)) a = a := by
  induction l generalizing a with
  | nil => rfl
  | cons q t ih =>
    rw [List.foldl_cons, max_eq_left (h q (List.mem_cons_self q t))]
    exact ih a fun p hp => h p (List.mem_cons_of_mem q hp)

/-- Helper: a running maximum reaches an attained upper bound. -/
theorem foldl_max_eq_hi {f : Nat → Nat} (l : List Nat) (hi : Nat)
    (hbd : ∀ p ∈ l, f p ≤ hi) (hatt : ∃ p ∈ l, f p = hi) :
    ∀ a, a ≤ hi → l.foldl (fun m p => max m (f p)) a = hi := by
  induction l with
  | nil => obtain ⟨p, hp, _⟩ := hatt; exact absurd hp (List.not_mem_nil p)
  | cons q t ih =>
    intro a hla
    rw [List.foldl_cons]
    by_cases hqt : ∃ p ∈ t, f p = hi
    · exact ih (fun p hp => hbd p (List.mem_cons_of_mem q hp)) hqt _
        (max_le hla (hbd q (List.mem_cons_self q t)))
    · obtain ⟨p, hp, hfp⟩ := hatt
      rcases List.mem_cons.mp hp with rfl | hpt
      · rw [hfp, max_eq_right hla]
        exact foldl_max_of_le t hi fun p' hp' =>
          hbd p' (List.mem_cons_of_mem _ hp')
      · exact absurd ⟨p, hpt, hfp⟩ hqt

/-- Helper: the four-way bounding-box fold splits into four independent folds. -/
theorem boundingBox_eq_folds (ps : List Nat) (width height : Nat) :
    boundingBox ps width height =
      (ps.foldl (fun m p => min m (p % width)) width,
       ps.foldl (fun m p => max m (p % width)) 0,
       ps.foldl (fun m p => min m (p / width)) height,
       ps.foldl (fun m p => max m (p / width)) 0) := by
  suffices h : ∀ (l : List Nat) (a b c d : Nat),
      l.foldl
        (fun bb p =>
          let x := p % width
          let y := p / width
          let bb1 := if x < bb.1 then (x, bb.2.1, bb.2.2.1, bb.2.2.2) else bb
          let bb2 := if x > bb1.2.1 then (bb1.1, x, bb1.2.2.1, bb1.2.2.2) else bb1
          let bb3 := if y < bb2.2.2.1 then (bb2.1, bb2.2.1, y, bb2.2.2.2) else bb2
          if y > bb3.2.2.2 then (bb3.1, bb3.2.1, bb3.2.2.1, y) else bb3)
        (a, b, c, d) =
      (l.foldl (fun m p => min m (p % width)) a,
       l.foldl (fun m p => max m (p % width)) b,
       l.foldl (fun m p => min m (p / width)) c,
       l.foldl (fun m p => max m (p / width)) d) by
    exact h ps width 0 height 0
  intro l
  induction l with
  | nil => intro a b c d; rfl
  | cons q t ih =>
    intro a b c d
    simp only [List.foldl_cons]
    have hstep : ∀ a b c d : Nat,
        (let x := q % width
         let y := q / width
         let bb1 := if x < a then (x, b, c, d) else (a, b, c, d)
         let bb2 := if x > bb1.2.1 then (bb1.1, x, bb1.2.2.1, bb1.2.2.2) else bb1
         let bb3 := if y < bb2.2.2.1 then (bb2.1, bb2.2.1, y, bb2.2.2.2) else bb2
         if y > bb3.2.2.2 then (bb3.1, bb3.2.1, bb3.2.2.1, y) else bb3)
        = (min a (q % width), max b (q % width), min c (q / width),
           max d (q / width)) := by
      intro a b c d
      dsimp only
      by_cases h1 : q % width < a <;>
        by_cases h2 : q % width > b <;>
          by_cases h3 : q / width < c <;>
            by_cases h4 : q / width > d <;>
              simp only [h1, h2, h3, h4, if_true, if_false, ite_true,
                ite_false, Prod.mk.injEq] <;>
              omega
    rw [hstep a b c d]
    exact ih _ _ _ _

/-- Helper: on a pixel list whose membership is exactly a `w×h` rectangle at
`(x0, y0)`, the bounding-box scan returns the rectangle's corners. -/
theorem boundingBox_rect (width height x0 y0 w h : Nat) (ps : List Nat)
    (hw : 1 ≤ w) (hh : 1 ≤ h) (hxw : x0 + w ≤ width) (hyh : y0 + h ≤ height)
    (hmem : ∀ p, p ∈ ps ↔ (x0 ≤ p % width ∧ p % width < x0 + w ∧
      y0 ≤ p / width ∧ p / width < y0 + h)) :
    boundingBox ps width height = (x0, x0 + w - 1, y0, y0 + h - 1) := by
  have hBL : (y0 * width + x0) ∈ ps := by
    rw [hmem, encode_mod x0 y0 width (by omega),
      encode_div x0 y0 width (by omega)]
    omega
  have hBR : (y0 * width + (x0 + w - 1)) ∈ ps := by
    rw [hmem, encode_mod (x0 + w - 1) y0 width (by omega),
      encode_div (x0 + w - 1) y0 width (by omega)]
    omega
  have hTL : ((y0 + h - 1) * width + x0) ∈ ps := by
    rw [hmem, encode_mod x0 (y0 + h - 1) width (by omega),
      encode_div x0 (y0 + h - 1) width (by omega)]
    omega
  rw [boundingBox_eq_folds]
  simp only [Prod.mk.injEq]
  refine ⟨?_, ?_, ?_, ?_⟩
  · exact foldl_min_eq_lo ps x0 (fun p hp => ((hmem p).mp hp).1)
      ⟨_, hBL, encode_mod x0 y0 width (by omega)⟩ width (by omega)
  · exact foldl_max_eq_hi ps (x0 + w - 1)
      (fun p hp => by have := ((hmem p).mp hp).2.1; omega)
      ⟨_, hBR, encode_mod (x0 + w - 1) y0 width (by omega)⟩ 0 (by omega)
  · exact foldl_min_eq_lo ps y0 (fun p hp => ((hmem p).mp hp).2.2.1)
      ⟨_, hBL, encode_div x0 y0 width (by omega)⟩ height (by omega)
  · exact foldl_max_eq_hi ps (y0 + h - 1)
      (fun p hp => by have := ((hmem p).mp hp).2.2.2; omega)
      ⟨_, hTL, encode_div x0 (y0 + h - 1) width (by omega)⟩ 0 (by omega)

/-- Helper: sums of pointwise sums of natural-valued maps. -/
theorem sum_map_add {α : Type} (l : List α) (f g : α → Nat) :
    (l.map fun x => f x + g x).sum = (l.map f).sum + (l.map g).sum := by
  induction l with
  | nil => rfl
  | cons q t ih =>
    simp only [List.map_cons, List.sum_cons, ih]
    omega

/-- Helper: summing a constant over a list. -/
theorem sum_map_const_nat {α : Type} (l : List α) (c : Nat) :
    (l.map fun _ => c).sum = l.length * c := by
  induction l with
  | nil => simp
  | cons q t ih =>
    simp only [List.map_cons, List.sum_cons, List.length_cons, ih,
      Nat.succ_mul]
    omega

/-- Helper: summing a single-point indicator over `range'`. -/
theorem sum_map_ite_single (a n c k : Nat) :
    ((List.range' a n).map fun x => if x = c then k else 0).sum =
      if a ≤ c ∧ c < a + n then k else 0 := by
  induction n generalizing a with
  | zero =>
    simp only [List.range', List.map_nil, List.sum_nil]
    split_ifs <;> omega
  | succ m ih =>
    rw [List.range'_succ, List.map_cons, List.sum_cons, ih (a + 1)]
    split_ifs <;> omega


/-- Helper: inside the rectangle, the four per-pixel side conditions emit
exactly the edges on the rectangle's four sides. -/
theorem pixelEdges_rect_len (width height x0 y0 w h : Nat) (ps : List Nat)
    (hw : 1 ≤ w) (hh : 1 ≤ h) (hxw : x0 + w ≤ width) (hyh : y0 + h ≤ height)
    (hmem : ∀ p, p ∈ ps ↔ (x0 ≤ p % width ∧ p % width < x0 + w ∧
      y0 ≤ p / width ∧ p / width < y0 + h))
    (x y : Nat) (hx : x0 ≤ x ∧ x < x0 + w) (hy : y0 ≤ y ∧ y < y0 + h) :
    (pixelEdges ps width height x y).length =
      (if y = y0 then 1 else 0) + (if y = y0 + h - 1 then 1 else 0)
        + ((if x = x0 then 1 else 0) + (if x = x0 + w - 1 then 1 else 0)) := by
  have hxlt : x < width := by omega
  have hcont : ∀ n, (ps.contains n = true) ↔
      (x0 ≤ n % width ∧ n % width < x0 + w ∧
        y0 ≤ n / width ∧ n / width < y0 + h) :=
    fun n => (contains_iff_mem ps n).trans (hmem n)
  have htop : ((y == 0 || !ps.contains ((y - 1) * width + x)) = true) ↔ y = y0 := by
    by_cases hy0 : y = 0
    · subst hy0
      exact iff_of_true (by simp) (by omega)
    · simp only [Bool.or_eq_true, beq_iff_eq, hy0, false_or,
        Bool.not_eq_true', ← Bool.not_eq_true, hcont,
        encode_mod x (y - 1) width hxlt, encode_div x (y - 1) width hxlt]
      omega
  have hbot : ((y == height - 1 || !ps.contains ((y + 1) * width + x)) = true)
      ↔ y = y0 + h - 1 := by
    simp only [Bool.or_eq_true, beq_iff_eq, Bool.not_eq_true',
      ← Bool.not_eq_true, hcont,
      encode_mod x (y + 1) width hxlt, encode_div x (y + 1) width hxlt]
    omega
  have hleft : ((x == 0 || !ps.contains (y * width + x - 1)) = true) ↔ x = x0 := by
    by_cases hx0 : x = 0
    · subst hx0
      exact iff_of_true (by simp) (by omega)
    · have hrw : y * width + x - 1 = y * width + (x - 1) := by omega
      simp only [Bool.or_eq_true, beq_iff_eq, hx0, false_or,
        Bool.not_eq_true', ← Bool.not_eq_true, hrw, hcont,
        encode_mod (x - 1) y width (by omega), encode_div (x - 1) y width (by omega)]
      omega
  have hright : ((x == width - 1 || !ps.contains (y * width + x + 1)) = true)
      ↔ x = x0 + w - 1 := by
    by_cases hx1 : x = width - 1
    · exact iff_of_true (by simp [hx1]) (by omega)
    · have hrw : y * width + x + 1 = y * width + (x + 1) := by omega
      simp only [Bool.or_eq_true, beq_iff_eq, hx1, false_or,
        Bool.not_eq_true', ← Bool.not_eq_true, hrw, hcont,
        encode_mod (x + 1) y width (by omega), encode_div (x + 1) y width (by omega)]
      omega
  rw [pixelEdges, if_congr htop rfl rfl, if_congr hbot rfl rfl,
    if_congr hleft rfl rfl, if_congr hright rfl rfl]
  simp only [List.length_append, apply_ite List.length, List.length_singleton,
    List.length_nil]
  omega

/-- Helper: one bounding-box row of the scanline loop contributes `w` edges on
the top and bottom rows and 2 side edges on every row. -/
theorem row_edge_count (width height x0 y0 w h : Nat) (ps : List Nat)
    (hw : 1 ≤ w) (hh : 1 ≤ h) (hxw : x0 + w ≤ width) (hyh : y0 + h ≤ height)
    (hmem : ∀ p, p ∈ ps ↔ (x0 ≤ p % width ∧ p % width < x0 + w ∧
      y0 ≤ p / width ∧ p / width < y0 + h))
    (y : Nat) (hy : y0 ≤ y ∧ y < y0 + h) :
    ((List.range' x0 w).flatMap fun x =>
        if ps.contains (y * width + x) then pixelEdges ps width height x y
        else []).length
      = (if y = y0 then w else 0) + (if y = y0 + h - 1 then w else 0) + 2 := by
  rw [List.length_flatMap]
  have hpt : ∀ x ∈ List.range' x0 w,
      (List.length ∘ fun x =>
        if ps.contains (y * width + x) then pixelEdges ps width height x y
        else []) x
      = ((if y = y0 then 1 else 0) + (if y = y0 + h - 1 then 1 else 0))
        + ((if x = x0 then 1 else 0) + (if x = x0 + w - 1 then 1 else 0)) := by
    intro x hxr
    have hx := List.mem_range'_1.mp hxr
    have hcx : ps.contains (y * width + x) = true := by
      rw [contains_iff_mem, hmem,
        encode_mod x y width (by omega), encode_div x y width (by omega)]
      omega
    simp only [Function.comp_apply, hcx, if_true, ite_true]
    rw [pixelEdges_rect_len width height x0 y0 w h ps hw hh hxw hyh hmem
      x y (by omega) hy]
  rw [List.map_congr_left hpt, sum_map_add]
  rw [sum_map_const_nat, sum_map_add, sum_map_ite_single, sum_map_ite_single,
    List.length_range']
  split_ifs <;> omega

/--
C5: for a region whose pixel set is exactly an axis-aligned `w × h` rectangle
of pixels inside the image (so that no pixel four-adjacent to the rectangle
belongs to the set), the boundary builder emits exactly `2*(w+h)` unit grid
edges; instantiated at a single `1×1` opaque region in a `1×1` image this is
the closed unit square of 4 edges (see the witness).
-/
theorem rectangle_boundary_edge_count (width height x0 y0 w h : Nat)
    (ps : List Nat) (hw : 1 ≤ w) (hh : 1 ≤ h)
    (hxw : x0 + w ≤ width) (hyh : y0 + h ≤ height)
    (hmem : ∀ p, p ∈ ps ↔ (x0 ≤ p % width ∧ p % width < x0 + w ∧
      y0 ≤ p / width ∧ p / width < y0 + h)) :
    (traceRegionBoundaryEdges ps width height).length = 2 * (w + h) := by
  rw [traceRegionBoundaryEdges,
    boundingBox_rect width height x0 y0 w h ps hw hh hxw hyh hmem]
  have hrows : x0 + w - 1 + 1 - x0 = w := by omega
  have hcols : y0 + h - 1 + 1 - y0 = h := by omega
  simp only [hrows, hcols]
  rw [List.length_flatMap]
  have hpt : ∀ y ∈ List.range' y0 h,
      (List.length ∘ fun y => (List.range' x0 w).flatMap fun x =>
          if ps.contains (y * width + x) then pixelEdges ps width height x y
          else []) y
      = (if y = y0 then w else 0) + ((if y = y0 + h - 1 then w else 0) + 2) := by
    intro y hyr
    have hy := List.mem_range'_1.mp hyr
    simp only [Function.comp_apply]
    rw [row_edge_count width height x0 y0 w h ps hw hh hxw hyh hmem y hy]
    omega
  rw [List.map_congr_left hpt, sum_map_add, sum_map_ite_single, sum_map_add,
    sum_map_ite_single, sum_map_const_nat, List.length_range']
  split_ifs <;> omega

/-- Witness for `rectangle_boundary_edge_count`: the 1×1 region in the 1×1
image has exactly the 4 unit edges of the closed unit square. -/
theorem rectangle_boundary_edge_count_witness :
    traceRegionBoundaryEdges [0] 1 1 =
      [((0, 0), (1, 0)), ((0, 1), (1, 1)), ((0, 0), (0, 1)), ((1, 0), (1, 1))] ∧
    (traceRegionBoundaryEdges [0] 1 1).length = 2 * (1 + 1) :=
  ⟨by decide,
    rectangle_boundary_edge_count 1 1 0 0 1 1 [0] (by omega) (by omega)
      (by omega) (by omega)
      (by
        intro p
        simp only [List.mem_singleton, Nat.mod_one, Nat.div_one]
        omega)⟩



/-! ### K-means quantizer (C6) -/

/-- Helper: `nearGo` reduction, `Infinity` case (first comparison succeeds). -/
theorem nearGo_cons_none (p c : RGB) (t : List RGB) (b n : Nat) :
    nearGo p (c :: t) (none, b, n) =
      nearGo p t (some (colorDist2 p c), n, n + 1) := rfl

/-- Helper: `nearGo` reduction, finite-minimum case. -/
theorem nearGo_cons_some (p c : RGB) (t : List RGB) (m : Int) (b n : Nat) :
    nearGo p (c :: t) (some m, b, n) =
      if colorDist2 p c < m then nearGo p t (some (colorDist2 p c), n, n + 1)
      else nearGo p t (some m, b, n + 1) := rfl

/-- Helper: loop invariant of the source's argmin scan — the accumulator holds
the first index attaining the minimum distance over the prefix scanned so far,
so at the end it holds the first global argmin. -/
theorem nearGo_invariant (p : RGB) (full : List RGB) :
    ∀ (rest : List RGB) (n : Nat), full.drop n = rest → n ≤ full.length →
      ∀ (m : Int) (b : Nat), b < n →
        m = colorDist2 p (full.getD b ⟨0, 0, 0⟩) →
        (∀ i < n, m ≤ colorDist2 p (full.getD i ⟨0, 0, 0⟩)) →
        (∀ i < b, m < colorDist2 p (full.getD i ⟨0, 0, 0⟩)) →
        (nearGo p rest (some m, b, n)).2.1 < full.length ∧
        (∀ i < full.length,
          colorDist2 p (full.getD (nearGo p rest (some m, b, n)).2.1 ⟨0, 0, 0⟩)
            ≤ colorDist2 p (full.getD i ⟨0, 0, 0⟩)) ∧
        (∀ i < (nearGo p rest (some m, b, n)).2.1,
          colorDist2 p (full.getD (nearGo p rest (some m, b, n)).2.1 ⟨0, 0, 0⟩)
            < colorDist2 p (full.getD i ⟨0, 0, 0⟩)) := by
  intro rest
  induction rest with
  | nil =>
    intro n hdrop hn m b hb hm hmin hfirst
    have hlen : full.length = n :=
      le_antisymm (List.drop_eq_nil_iff.mp hdrop) hn
    have hres : nearGo p [] (some m, b, n) = (some m, b, n) := rfl
    simp only [hres]
    refine ⟨by omega, ?_, ?_⟩
    · intro i hi
      rw [← hm]
      exact hmin i (by omega)
    · intro i hi
      rw [← hm]
      exact hfirst i hi
  | cons c t ih =>
    intro n hdrop hn m b hb hm hmin hfirst
    have hnlt : n < full.length := by
      by_contra hcon
      rw [List.drop_eq_nil_iff.mpr (by omega)] at hdrop
      exact List.cons_ne_nil c t hdrop.symm
    have hcn : full[n] = c ∧ full.drop (n + 1) = t := by
      have := List.drop_eq_getElem_cons hnlt (l := full)
      rw [hdrop] at this
      exact ⟨(List.cons.injEq _ _ _ _ ▸ this).1.symm,
        ((List.cons.injEq _ _ _ _ ▸ this).2).symm⟩
    have hgetn : full.getD n ⟨0, 0, 0⟩ = c := by
      rw [List.getD_eq_getElem _ _ hnlt, hcn.1]
    rw [nearGo_cons_some]
    by_cases hlt : colorDist2 p c < m
    · rw [if_pos hlt]
      refine ih (n + 1) hcn.2 (by omega) (colorDist2 p c) n (by omega)
        (by rw [hgetn]) ?_ ?_
      · intro i hi
        rcases Nat.lt_or_ge i n with hin | hin
        · exact le_of_lt (lt_of_lt_of_le hlt (hmin i hin))
        · have : i = n := by omega
          rw [this, hgetn]
      · intro i hi
        exact lt_of_lt_of_le hlt (hmin i hi)
    · rw [if_neg hlt]
      refine ih (n + 1) hcn.2 (by omega) m b (by omega) hm ?_ hfirst
      intro i hi
      rcases Nat.lt_or_ge i n with hin | hin
      · exact hmin i hin
      · have : i = n := by omega
        rw [this, hgetn]
        exact le_of_not_lt hlt

/-- Helper: the chosen index is in range (for a nonempty centroid list). -/
theorem nearestIdx_lt (p : RGB) (cents : List RGB) (hc : cents ≠ []) :
    nearestIdx p cents < cents.length := by
  obtain ⟨c, t, rfl⟩ := List.exists_cons_of_ne_nil hc
  have h0 : (c :: t).getD 0 ⟨0, 0, 0⟩ = c := rfl
  have := nearGo_invariant p (c :: t) t 1 rfl (by simp) (colorDist2 p c) 0
    (by omega) (by rw [h0]) (by intro i hi; interval_cases i; rw [h0])
    (by intro i hi; omega)
  rw [nearestIdx, nearGo_cons_none]
  exact this.1

/-- Helper: the chosen centroid minimizes the (squared) distance. -/
theorem nearestIdx_min (p : RGB) (cents : List RGB) :
    ∀ i < cents.length,
      colorDist2 p (cents.getD (nearestIdx p cents) ⟨0, 0, 0⟩)
        ≤ colorDist2 p (cents.getD i ⟨0, 0, 0⟩) := by
  rcases cents with _ | ⟨c, t⟩
  · intro i hi; simp at hi
  · have h0 : (c :: t).getD 0 ⟨0, 0, 0⟩ = c := rfl
    have := nearGo_invariant p (c :: t) t 1 rfl (by simp) (colorDist2 p c) 0
      (by omega) (by rw [h0]) (by intro i hi; interval_cases i; rw [h0])
      (by intro i hi; omega)
    intro i hi
    rw [nearestIdx, nearGo_cons_none]
    exact this.2.1 i hi

/-- Helper: ties break to the lowest index — every strictly smaller index is
strictly farther. -/
theorem nearestIdx_first (p : RGB) (cents : List RGB) :
    ∀ i < nearestIdx p cents,
      colorDist2 p (cents.getD (nearestIdx p cents) ⟨0, 0, 0⟩)
        < colorDist2 p (cents.getD i ⟨0, 0, 0⟩) := by
  rcases cents with _ | ⟨c, t⟩
  · intro i hi
    simp [nearestIdx, nearGo] at hi
  · have h0 : (c :: t).getD 0 ⟨0, 0, 0⟩ = c := rfl
    have := nearGo_invariant p (c :: t) t 1 rfl (by simp) (colorDist2 p c) 0
      (by omega) (by rw [h0]) (by intro i hi; interval_cases i; rw [h0])
      (by intro i hi; omega)
    intro i hi
    rw [nearestIdx, nearGo_cons_none]
    rw [nearestIdx, nearGo_cons_none] at hi
    exact this.2.2 i hi

/-- Helper: the accumulation loop of a pass computes, per cluster index, the
per-channel sums and the count of the pixels assigned to that cluster. -/
theorem assignPass_getD (data : List RGBA) (cents : List RGB) (j : Nat)
    (hj : j < cents.length) :
    (assignPass data cents).getD j zeroSum =
      ⟨((data.filter fun px => 128 ≤ px.a ∧ nearestIdx px.rgb cents = j).map
          RGBA.r).sum,
       ((data.filter fun px => 128 ≤ px.a ∧ nearestIdx px.rgb cents = j).map
          RGBA.g).sum,
       ((data.filter fun px => 128 ≤ px.a ∧ nearestIdx px.rgb cents = j).map
          RGBA.b).sum,
       (data.filter fun px => 128 ≤ px.a ∧ nearestIdx px.rgb cents = j).length⟩ := by
  suffices h : ∀ (sums : List ClusterSum), sums.length = cents.length →
      (data.foldl
        (fun sums px =>
          if px.a < 128 then sums
          else
            let j := nearestIdx px.rgb cents
            let s := sums.getD j zeroSum
            sums.set j ⟨s.r + px.r, s.g + px.g, s.b + px.b, s.count + 1⟩)
        sums).getD j zeroSum =
      ⟨(sums.getD j zeroSum).r +
          ((data.filter fun px => 128 ≤ px.a ∧ nearestIdx px.rgb cents = j).map
            RGBA.r).sum,
       (sums.getD j zeroSum).g +
          ((data.filter fun px => 128 ≤ px.a ∧ nearestIdx px.rgb cents = j).map
            RGBA.g).sum,
       (sums.getD j zeroSum).b +
          ((data.filter fun px => 128 ≤ px.a ∧ nearestIdx px.rgb cents = j).map
            RGBA.b).sum,
       (sums.getD j zeroSum).count +
          (data.filter fun px => 128 ≤ px.a ∧ nearestIdx px.rgb cents = j).length⟩ by
    have hz : ((cents.map fun _ => zeroSum).getD j zeroSum) = zeroSum := by
      rw [List.getD_eq_getElem _ _ (by simpa using hj), List.getElem_map]
    rw [assignPass, h (cents.map fun _ => zeroSum) (by simp), hz]
    simp [zeroSum]
  induction data with
  | nil =>
    intro sums hlen
    simp [List.filter_nil]
  | cons px t ih =>
    intro sums hlen
    rw [List.foldl_cons, List.filter_cons]
    by_cases ha : px.a < 128
    · rw [if_pos ha]
      have hfilt : (decide (128 ≤ px.a ∧ nearestIdx px.rgb cents = j)) = false := by
        simp; omega
      rw [hfilt]
      simp only [Bool.false_eq_true, if_false]
      exact ih sums hlen
    · rw [if_neg ha]
      dsimp only
      have hj2 : nearestIdx px.rgb cents < sums.length := by
        rw [hlen]
        exact nearestIdx_lt px.rgb cents (by rintro rfl; simp at hj)
      by_cases hjj : nearestIdx px.rgb cents = j
      · have hfilt : (decide (128 ≤ px.a ∧ nearestIdx px.rgb cents = j)) = true := by
          simp [hjj]; omega
        rw [hfilt, if_pos rfl]
        rw [ih _ (by rw [List.length_set, hlen])]
        have hset : ((sums.set (nearestIdx px.rgb cents)
            ⟨(sums.getD (nearestIdx px.rgb cents) zeroSum).r + px.r,
             (sums.getD (nearestIdx px.rgb cents) zeroSum).g + px.g,
             (sums.getD (nearestIdx px.rgb cents) zeroSum).b + px.b,
             (sums.getD (nearestIdx px.rgb cents) zeroSum).count + 1⟩).getD j
            zeroSum) =
            ⟨(sums.getD j zeroSum).r + px.r, (sums.getD j zeroSum).g + px.g,
             (sums.getD j zeroSum).b + px.b,
             (sums.getD j zeroSum).count + 1⟩ := by
          subst hjj
          rw [List.getD_eq_getElem _ _ (by rwa [List.length_set]),
            List.getElem_set_self, List.getD_eq_getElem _ _ hj2]
        rw [hset]
        simp only [List.map_cons, List.sum_cons, ClusterSum.mk.injEq,
          List.length_cons]
        refine ⟨by omega, by omega, by omega, by omega⟩
      · have hfilt : (decide (128 ≤ px.a ∧ nearestIdx px.rgb cents = j)) = false := by
          simp [hjj]
        rw [hfilt]
        simp only [Bool.false_eq_true, if_false]
        rw [ih _ (by rw [List.length_set, hlen])]
        have hset : ((sums.set (nearestIdx px.rgb cents)
            ⟨(sums.getD (nearestIdx px.rgb cents) zeroSum).r + px.r,
             (sums.getD (nearestIdx px.rgb cents) zeroSum).g + px.g,
             (sums.getD (nearestIdx px.rgb cents) zeroSum).b + px.b,
             (sums.getD (nearestIdx px.rgb cents) zeroSum).count + 1⟩).getD j
            zeroSum) = sums.getD j zeroSum := by
          by_cases hjlen : j < sums.length
          · rw [List.getD_eq_getElem _ _ (by rwa [List.length_set]),
              List.getElem_set_ne hjj, List.getD_eq_getElem _ _ hjlen]
          · have hs1 : (sums.set (nearestIdx px.rgb cents)
                ⟨(sums.getD (nearestIdx px.rgb cents) zeroSum).r + px.r,
                 (sums.getD (nearestIdx px.rgb cents) zeroSum).g + px.g,
                 (sums.getD (nearestIdx px.rgb cents) zeroSum).b + px.b,
                 (sums.getD (nearestIdx px.rgb cents) zeroSum).count + 1⟩).getD j
                zeroSum = zeroSum :=
              List.getD_eq_default _ _ (by rw [List.length_set]; omega)
            have hs2 : sums.getD j zeroSum = zeroSum :=
              List.getD_eq_default _ _ (by omega)
            rw [hs1, hs2]
        rw [hset]

/-- Helper: the centroid-update loop, read at one index. -/
theorem updateCentroids_getD (cents : List RGB) (sums : List ClusterSum)
    (j : Nat) (hj : j < cents.length) :
    (updateCentroids cents sums).getD j ⟨0, 0, 0⟩ =
      (if (sums.getD j zeroSum).count > 0 then
        ⟨jsRound (sums.getD j zeroSum).r (sums.getD j zeroSum).count,
         jsRound (sums.getD j zeroSum).g (sums.getD j zeroSum).count,
         jsRound (sums.getD j zeroSum).b (sums.getD j zeroSum).count⟩
      else cents.getD j ⟨0, 0, 0⟩) := by
  rw [updateCentroids, List.getD_eq_getElem _ _ (by simpa using hj),
    List.getElem_map, List.getElem_range]

/--
C6: the quantizer refinement runs exactly 5 passes (`refineCentroids` is the
5-fold iterate of `kmeansStep`); within a pass, each opaque pixel
(alpha ≥ 128) is assigned to the centroid of minimum Euclidean RGB distance
with ties to the lowest index (`nearestIdx` minimality and first-argmin
conjuncts), and at the end of the pass a centroid with at least one assigned
pixel becomes the integer-rounded per-channel mean of its assigned pixels
while a centroid with none keeps its previous value.
-/
theorem kmeans_refinement_spec (data : List RGBA) (cents0 cents : List RGB)
    (p : RGB) (j : Nat) (hj : j < cents.length) :
    (quantIterations = 5 ∧
      refineCentroids data cents0 = (kmeansStep data)^[5] cents0) ∧
    ((kmeansStep data cents).getD j ⟨0, 0, 0⟩ =
      (if 0 < (data.filter fun px =>
            128 ≤ px.a ∧ nearestIdx px.rgb cents = j).length then
        ⟨jsRound ((data.filter fun px =>
              128 ≤ px.a ∧ nearestIdx px.rgb cents = j).map RGBA.r).sum
            (data.filter fun px =>
              128 ≤ px.a ∧ nearestIdx px.rgb cents = j).length,
         jsRound ((data.filter fun px =>
              128 ≤ px.a ∧ nearestIdx px.rgb cents = j).map RGBA.g).sum
            (data.filter fun px =>
              128 ≤ px.a ∧ nearestIdx px.rgb cents = j).length,
         jsRound ((data.filter fun px =>
              128 ≤ px.a ∧ nearestIdx px.rgb cents = j).map RGBA.b).sum
            (data.filter fun px =>
              128 ≤ px.a ∧ nearestIdx px.rgb cents = j).length⟩
      else cents.getD j ⟨0, 0, 0⟩)) ∧
    (nearestIdx p cents < cents.length ∧
      (∀ i < cents.length,
        colorDist2 p (cents.getD (nearestIdx p cents) ⟨0, 0, 0⟩)
          ≤ colorDist2 p (cents.getD i ⟨0, 0, 0⟩)) ∧
      (∀ i < nearestIdx p cents,
        colorDist2 p (cents.getD (nearestIdx p cents) ⟨0, 0, 0⟩)
          < colorDist2 p (cents.getD i ⟨0, 0, 0⟩))) := by
  refine ⟨⟨rfl, ?_⟩, ?_, ?_, nearestIdx_min p cents, nearestIdx_first p cents⟩
  · show (List.range quantIterations).foldl
        (fun cs _ => kmeansStep data cs) cents0 = (kmeansStep data)^[5] cents0
    have hgen : ∀ (n : Nat) (a : List RGB),
        (List.range n).foldl (fun cs _ => kmeansStep data cs) a
          = (kmeansStep data)^[n] a := by
      intro n
      induction n with
      | zero => intro a; rfl
      | succ m ihm =>
        intro a
        rw [List.range_succ, List.foldl_append, ihm,
          Function.iterate_succ_apply']
        rfl
    exact hgen quantIterations cents0
  · rw [kmeansStep, updateCentroids_getD cents _ j hj, assignPass_getD data cents j hj]
  · exact nearestIdx_lt p cents (by rintro rfl; simp at hj)

/-- Witness for `kmeans_refinement_spec` at a concrete one-pixel buffer and a
two-centroid list. -/
theorem kmeans_refinement_spec_witness :
    (0 < ([⟨0, 0, 0⟩, ⟨9, 9, 9⟩] : List RGB).length) ∧
    ((quantIterations = 5 ∧
      refineCentroids [(⟨2, 0, 0, 255⟩ : RGBA)] [(⟨1, 2, 3⟩ : RGB)] =
        (kmeansStep [(⟨2, 0, 0, 255⟩ : RGBA)])^[5] [(⟨1, 2, 3⟩ : RGB)]) ∧
    ((kmeansStep [(⟨2, 0, 0, 255⟩ : RGBA)] [⟨0, 0, 0⟩, ⟨9, 9, 9⟩]).getD 0 ⟨0, 0, 0⟩ =
      (if 0 < (([(⟨2, 0, 0, 255⟩ : RGBA)].filter fun px =>
            128 ≤ px.a ∧ nearestIdx px.rgb [⟨0, 0, 0⟩, ⟨9, 9, 9⟩] = 0).length) then
        ⟨jsRound ((([(⟨2, 0, 0, 255⟩ : RGBA)].filter fun px =>
              128 ≤ px.a ∧ nearestIdx px.rgb [⟨0, 0, 0⟩, ⟨9, 9, 9⟩] = 0).map RGBA.r).sum)
            (([(⟨2, 0, 0, 255⟩ : RGBA)].filter fun px =>
              128 ≤ px.a ∧ nearestIdx px.rgb [⟨0, 0, 0⟩, ⟨9, 9, 9⟩] = 0).length),
         jsRound ((([(⟨2, 0, 0, 255⟩ : RGBA)].filter fun px =>
              128 ≤ px.a ∧ nearestIdx px.rgb [⟨0, 0, 0⟩, ⟨9, 9, 9⟩] = 0).map RGBA.g).sum)
            (([(⟨2, 0, 0, 255⟩ : RGBA)].filter fun px =>
              128 ≤ px.a ∧ nearestIdx px.rgb [⟨0, 0, 0⟩, ⟨9, 9, 9⟩] = 0).length),
         jsRound ((([(⟨2, 0, 0, 255⟩ : RGBA)].filter fun px =>
              128 ≤ px.a ∧ nearestIdx px.rgb [⟨0, 0, 0⟩, ⟨9, 9, 9⟩] = 0).map RGBA.b).sum)
            (([(⟨2, 0, 0, 255⟩ : RGBA)].filter fun px =>
              128 ≤ px.a ∧ nearestIdx px.rgb [⟨0, 0, 0⟩, ⟨9, 9, 9⟩] = 0).length)⟩
      else ([⟨0, 0, 0⟩, ⟨9, 9, 9⟩] : List RGB).getD 0 ⟨0, 0, 0⟩)) ∧
    (nearestIdx ⟨5, 0, 0⟩ [⟨0, 0, 0⟩, ⟨9, 9, 9⟩] < ([⟨0, 0, 0⟩, ⟨9, 9, 9⟩] : List RGB).length ∧
      (∀ i < ([⟨0, 0, 0⟩, ⟨9, 9, 9⟩] : List RGB).length,
        colorDist2 ⟨5, 0, 0⟩ (([⟨0, 0, 0⟩, ⟨9, 9, 9⟩] : List RGB).getD
            (nearestIdx ⟨5, 0, 0⟩ [⟨0, 0, 0⟩, ⟨9, 9, 9⟩]) ⟨0, 0, 0⟩)
          ≤ colorDist2 ⟨5, 0, 0⟩ (([⟨0, 0, 0⟩, ⟨9, 9, 9⟩] : List RGB).getD i ⟨0, 0, 0⟩)) ∧
      (∀ i < nearestIdx ⟨5, 0, 0⟩ [⟨0, 0, 0⟩, ⟨9, 9, 9⟩],
        colorDist2 ⟨5, 0, 0⟩ (([⟨0, 0, 0⟩, ⟨9, 9, 9⟩] : List RGB).getD
            (nearestIdx ⟨5, 0, 0⟩ [⟨0, 0, 0⟩, ⟨9, 9, 9⟩]) ⟨0, 0, 0⟩)
          < colorDist2 ⟨5, 0, 0⟩ (([⟨0, 0, 0⟩, ⟨9, 9, 9⟩] : List RGB).getD i ⟨0, 0, 0⟩)))) :=
  ⟨by decide,
    kmeans_refinement_spec [⟨2, 0, 0, 255⟩] [⟨1, 2, 3⟩] [⟨0, 0, 0⟩, ⟨9, 9, 9⟩]
      ⟨5, 0, 0⟩ 0 (by decide)⟩



/-! ### Region extraction: neighbor geometry and reachability -/

/-- Helper: coordinate characterization of the neighbor list. -/
theorem mem_neighborsOf (width height p q : Nat) :
    q ∈ neighborsOf width height p ↔
      ((p % width + 1 < width ∧ p / width < height ∧
          q = (p / width) * width + (p % width + 1)) ∨
       (1 ≤ p % width ∧ p % width - 1 < width ∧ p / width < height ∧
          q = (p / width) * width + (p % width - 1)) ∨
       (p % width < width ∧ p / width + 1 < height ∧
          q = (p / width + 1) * width + p % width) ∨
       (p % width < width ∧ 1 ≤ p / width ∧ p / width - 1 < height ∧
          q = (p / width - 1) * width + p % width)) := by
  obtain ⟨a, ha⟩ : ∃ a, p % width = a := ⟨_, rfl⟩
  obtain ⟨b, hb⟩ : ∃ b, p / width = b := ⟨_, rfl⟩
  simp only [neighborsOf, List.mem_filterMap, dirs, List.mem_cons,
    List.mem_singleton, List.not_mem_nil, or_false, nbrCand, ha, hb]
  constructor
  · rintro ⟨d, hd, hfd⟩
    rcases hd with rfl | rfl | rfl | rfl
    · dsimp only at hfd
      rw [Option.ite_none_right_eq_some, Option.some.injEq] at hfd
      obtain ⟨⟨h1, h2, h3, h4⟩, hfd⟩ := hfd
      refine Or.inl ⟨by omega, by omega, ?_⟩
      rw [← hfd]
      have e1 : ((b : Int) + 0).toNat = b := by omega
      have e2 : ((a : Int) + 1).toNat = a + 1 := by omega
      rw [e1, e2]
    · dsimp only at hfd
      rw [Option.ite_none_right_eq_some, Option.some.injEq] at hfd
      obtain ⟨⟨h1, h2, h3, h4⟩, hfd⟩ := hfd
      refine Or.inr (Or.inl ⟨by omega, by omega, by omega, ?_⟩)
      rw [← hfd]
      have e1 : ((b : Int) + 0).toNat = b := by omega
      have e2 : ((a : Int) + -1).toNat = a - 1 := by omega
      rw [e1, e2]
    · dsimp only at hfd
      rw [Option.ite_none_right_eq_some, Option.some.injEq] at hfd
      obtain ⟨⟨h1, h2, h3, h4⟩, hfd⟩ := hfd
      refine Or.inr (Or.inr (Or.inl ⟨by omega, by omega, ?_⟩))
      rw [← hfd]
      have e1 : ((b : Int) + 1).toNat = b + 1 := by omega
      have e2 : ((a : Int) + 0).toNat = a := by omega
      rw [e1, e2]
    · dsimp only at hfd
      rw [Option.ite_none_right_eq_some, Option.some.injEq] at hfd
      obtain ⟨⟨h1, h2, h3, h4⟩, hfd⟩ := hfd
      refine Or.inr (Or.inr (Or.inr ⟨by omega, by omega, by omega, ?_⟩))
      rw [← hfd]
      have e1 : ((b : Int) + -1).toNat = b - 1 := by omega
      have e2 : ((a : Int) + 0).toNat = a := by omega
      rw [e1, e2]
  · rintro (⟨h1, h2, rfl⟩ | ⟨h1, h2, h3, rfl⟩ | ⟨h1, h2, rfl⟩ |
      ⟨h1, h2, h3, rfl⟩)
    · refine ⟨(1, 0), Or.inl rfl, ?_⟩
      dsimp only
      rw [Option.ite_none_right_eq_some, Option.some.injEq]
      refine ⟨⟨by omega, by omega, by omega, by omega⟩, ?_⟩
      have e1 : ((b : Int) + 0).toNat = b := by omega
      have e2 : ((a : Int) + 1).toNat = a + 1 := by omega
      rw [e1, e2]
    · refine ⟨(-1, 0), Or.inr (Or.inl rfl), ?_⟩
      dsimp only
      rw [Option.ite_none_right_eq_some, Option.some.injEq]
      refine ⟨⟨by omega, by omega, by omega, by omega⟩, ?_⟩
      have e1 : ((b : Int) + 0).toNat = b := by omega
      have e2 : ((a : Int) + -1).toNat = a - 1 := by omega
      rw [e1, e2]
    · refine ⟨(0, 1), Or.inr (Or.inr (Or.inl rfl)), ?_⟩
      dsimp only
      rw [Option.ite_none_right_eq_some, Option.some.injEq]
      refine ⟨⟨by omega, by omega, by omega, by omega⟩, ?_⟩
      have e1 : ((b : Int) + 1).toNat = b + 1 := by omega
      have e2 : ((a : Int) + 0).toNat = a := by omega
      rw [e1, e2]
    · refine ⟨(0, -1), Or.inr (Or.inr (Or.inr rfl)), ?_⟩
      dsimp only
      rw [Option.ite_none_right_eq_some, Option.some.injEq]
      refine ⟨⟨by omega, by omega, by omega, by omega⟩, ?_⟩
      have e1 : ((b : Int) + -1).toNat = b - 1 := by omega
      have e2 : ((a : Int) + 0).toNat = a := by omega
      rw [e1, e2]


/-- Helper: grid cells are in image range. -/
theorem cell_lt (width height x y : Nat) (hx : x < width) (hy : y < height) :
    y * width + x < width * height := by
  calc y * width + x < (y + 1) * width := by rw [Nat.succ_mul]; omega
    _ ≤ height * width := Nat.mul_le_mul_right width hy
    _ = width * height := Nat.mul_comm height width

/-- Helper: generated neighbors always lie inside the image. -/
theorem mem_neighborsOf_lt (width height p q : Nat)
    (hq : q ∈ neighborsOf width height p) : q < width * height := by
  rw [mem_neighborsOf] at hq
  rcases hq with ⟨h1, h2, rfl⟩ | ⟨h1, h2, h3, rfl⟩ | ⟨h1, h2, rfl⟩ |
    ⟨h1, h2, h3, rfl⟩
  · exact cell_lt width height _ _ (by omega) (by omega)
  · exact cell_lt width height _ _ (by omega) (by omega)
  · exact cell_lt width height _ _ (by omega) (by omega)
  · exact cell_lt width height _ _ (by omega) (by omega)

/-- Helper: the neighbor relation is symmetric on in-image pixels. -/
theorem neighborsOf_symm (width height p q : Nat) (hp : p < width * height)
    (hq : q ∈ neighborsOf width height p) : p ∈ neighborsOf width height q := by
  rw [mem_neighborsOf] at hq
  rw [mem_neighborsOf]
  have hdm : width * (p / width) + p % width = p := Nat.div_add_mod p width
  obtain ⟨a, ha⟩ : ∃ a, p % width = a := ⟨_, rfl⟩
  obtain ⟨b, hb⟩ : ∃ b, p / width = b := ⟨_, rfl⟩
  rw [ha, hb] at hq hdm
  have hrow : b < height ∨ width = 0 := by
    rcases Nat.eq_zero_or_pos width with hw0 | hwpos
    · exact Or.inr hw0
    · refine Or.inl ?_
      rw [← hb]
      rw [Nat.mul_comm] at hp
      exact (Nat.div_lt_iff_lt_mul hwpos).mpr hp
  rcases hq with ⟨h1, h2, rfl⟩ | ⟨h1, h2, h3, rfl⟩ | ⟨h1, h2, rfl⟩ |
    ⟨h1, h2, h3, rfl⟩
  · rw [encode_mod (a + 1) b width (by omega),
      encode_div (a + 1) b width (by omega)]
    refine Or.inr (Or.inl ⟨by omega, by omega, by omega, ?_⟩)
    have e : a + 1 - 1 = a := by omega
    rw [e, Nat.mul_comm]
    omega
  · have hwpos : 0 < width := by omega
    have ham : a < width := ha ▸ Nat.mod_lt p hwpos
    rw [encode_mod (a - 1) b width (by omega),
      encode_div (a - 1) b width (by omega)]
    refine Or.inl ⟨by omega, by omega, ?_⟩
    have e : a - 1 + 1 = a := by omega
    rw [e, Nat.mul_comm]
    omega
  · rw [encode_mod a (b + 1) width (by omega),
      encode_div a (b + 1) width (by omega)]
    refine Or.inr (Or.inr (Or.inr ⟨by omega, by omega, ?_, ?_⟩))
    · have e : b + 1 - 1 = b := by omega
      rw [e]
      omega
    · have e : b + 1 - 1 = b := by omega
      rw [e, Nat.mul_comm]
      omega
  · have hwpos : 0 < width := by omega
    have hbh : b < height := by
      rcases hrow with h | h
      · exact h
      · omega
    rw [encode_mod a (b - 1) width (by omega),
      encode_div a (b - 1) width (by omega)]
    refine Or.inr (Or.inr (Or.inl ⟨by omega, ?_, ?_⟩))
    · have e : b - 1 + 1 = b := by omega
      rw [e]
      omega
    · have e : b - 1 + 1 = b := by omega
      rw [e, Nat.mul_comm]
      omega

/-- Helper: every pixel of a component carries the seed's label. -/
theorem Reach_label {labels : Nat → Int} {width height s q : Nat}
    (hr : Reach labels width height s q) : labels q = labels s := by
  induction hr with
  | refl => rfl
  | step _ _ hl _ => exact hl

/-- Helper: components of in-image seeds stay inside the image. -/
theorem Reach_lt {labels : Nat → Int} {width height s q : Nat}
    (hr : Reach labels width height s q) (hs : s < width * height) :
    q < width * height := by
  induction hr with
  | refl => exact hs
  | step _ hn _ _ => exact mem_neighborsOf_lt width height _ _ hn

/-- Helper: if a visitation set is closed under same-label adjacency and
contains any pixel of an in-image seed's component, it contains the seed. -/
theorem Reach_back {labels : Nat → Int} {width height s q : Nat}
    (vis : Nat → Bool)
    (hcl : ∀ p q', vis p = true → q' ∈ neighborsOf width height p →
      labels q' = labels p → vis q' = true)
    (hs : s < width * height)
    (hr : Reach labels width height s q) (hv : vis q = true) :
    vis s = true := by
  induction hr with
  | refl => exact hv
  | step hp hn hl ih =>
    refine ih ?_
    refine hcl _ _ hv
      (neighborsOf_symm width height _ _ (Reach_lt hp hs) hn) ?_
    rw [Reach_label hp, hl]


/-- Helper: one neighbor attempt, rephrased through `nbrCand`. -/
theorem tryNeighbor_eq (labels : Nat → Int) (w h : Nat) (ci : Int) (cur : Nat)
    (d : Int × Int) (s : BfsState) :
    tryNeighbor labels w h ci (cur % w) (cur / w) d s =
      (match nbrCand w h cur d with
      | none => s
      | some nIdx =>
        if s.visited nIdx = false ∧ labels nIdx = ci then
          { s with
            visited := fun i => if i = nIdx then true else s.visited i
            queue := s.queue ++ [nIdx]
            pixels := s.pixels ++ [nIdx] }
        else s) := by
  cases hcand : nbrCand w h cur d with
  | none =>
    have hcnot : ¬ (0 ≤ ((cur % w : Nat) : Int) + d.1 ∧
        ((cur % w : Nat) : Int) + d.1 < (w : Int) ∧
        0 ≤ ((cur / w : Nat) : Int) + d.2 ∧
        ((cur / w : Nat) : Int) + d.2 < (h : Int)) := by
      intro hcon
      rw [nbrCand] at hcand
      rw [if_pos hcon] at hcand
      exact Option.noConfusion hcand
    simp only [tryNeighbor, if_neg hcnot]
  | some nIdx =>
    have hmm := hcand
    rw [nbrCand] at hmm
    rw [Option.ite_none_right_eq_some, Option.some.injEq] at hmm
    obtain ⟨hc, hval⟩ := hmm
    simp only [tryNeighbor, if_pos hc]
    rw [hval]

/-- Helper: a filter over a duplicate-free list loses exactly the marked
element when one unmarked member gets marked. -/
theorem filter_update_length (l : List Nat) (hnd : l.Nodup) (vis : Nat → Bool)
    (n : Nat) (hn : n ∈ l) (hvn : vis n = false) :
    (l.filter fun i => !(if i = n then true else vis i)).length + 1
      = (l.filter fun i => !vis i).length := by
  induction l with
  | nil => cases hn
  | cons x t ih =>
    rw [List.nodup_cons] at hnd
    rw [List.filter_cons, List.filter_cons]
    rcases List.mem_cons.mp hn with heq | hnt
    · subst heq
      rw [show (!(if n = n then true else vis n)) = false by simp,
        show (!vis n) = true by simp [hvn]]
      simp only [Bool.false_eq_true, if_false, if_true, List.length_cons]
      have hfc : (t.filter fun i => !(if i = n then true else vis i))
          = t.filter fun i => !vis i := by
        refine List.filter_congr ?_
        intro y hy
        have hyn : y ≠ n := fun hcon => hnd.1 (hcon ▸ hy)
        simp [hyn]
      rw [hfc]
    · have hxn : x ≠ n := fun hcon => hnd.1 (hcon ▸ hnt)
      rw [show (!(if x = n then true else vis x)) = !vis x by simp [hxn]]
      rcases Bool.eq_false_or_eq_true (vis x) with hvx | hvx
      · rw [show (!vis x) = false by simp [hvx]]
        simp only [Bool.false_eq_true, if_false]
        exact ih hnd.2 hnt
      · rw [show (!vis x) = true by simp [hvx]]
        simp only [if_true, List.length_cons]
        have := ih hnd.2 hnt
        omega

/-- Helper: marking an unvisited in-image pixel decrements the unvisited
count. -/
theorem uCount_mark (w h : Nat) (vis : Nat → Bool) (n : Nat)
    (hn : n < w * h) (hv : vis n = false) :
    uCount w h (fun i => if i = n then true else vis i) + 1 = uCount w h vis :=
  filter_update_length (List.range (w * h)) (List.nodup_range _) vis n
    (List.mem_range.mpr hn) hv

/-- Helper: the unvisited count never exceeds the pixel count. -/
theorem uCount_le (w h : Nat) (vis : Nat → Bool) : uCount w h vis ≤ w * h := by
  calc uCount w h vis ≤ (List.range (w * h)).length := List.length_filter_le _ _
    _ = w * h := List.length_range _



/-- Helper: one neighbor attempt preserves the BFS invariant, only appends to
the queue, only grows the visited set, keeps `unvisited + queue length`
constant, and leaves the candidate (when same-labeled) visited. -/
theorem tryNeighbor_spec (labels : Nat → Int) (w h : Nat) (ci : Int)
    (vis0 : Nat → Bool) (seed cur : Nat) (d : Int × Int) (t : BfsState)
    (hd : d ∈ dirs) (hcur : Reach labels w h seed cur)
    (hci : ci = labels seed)
    (hinv : BfsInv labels w h ci vis0 seed t) :
    BfsInv labels w h ci vis0 seed
        (tryNeighbor labels w h ci (cur % w) (cur / w) d t) ∧
    (tryNeighbor labels w h ci (cur % w) (cur / w) d t).head = t.head ∧
    (∃ ext, (tryNeighbor labels w h ci (cur % w) (cur / w) d t).queue
        = t.queue ++ ext) ∧
    (∀ p, t.visited p = true →
      (tryNeighbor labels w h ci (cur % w) (cur / w) d t).visited p = true) ∧
    (uCount w h (tryNeighbor labels w h ci (cur % w) (cur / w) d t).visited
        + (tryNeighbor labels w h ci (cur % w) (cur / w) d t).queue.length
      = uCount w h t.visited + t.queue.length) ∧
    (∀ q, nbrCand w h cur d = some q → labels q = ci →
      (tryNeighbor labels w h ci (cur % w) (cur / w) d t).visited q = true) := by
  obtain ⟨hB1, hB2, hB3, hB4, hB5, hB6, hB7, hB8, hB9⟩ := hinv
  rw [tryNeighbor_eq]
  cases hcand : nbrCand w h cur d with
  | none =>
    dsimp only
    refine ⟨⟨hB1, hB2, hB3, hB4, hB5, hB6, hB7, hB8, hB9⟩, rfl,
      ⟨[], (List.append_nil _).symm⟩, fun p hp => hp, rfl, ?_⟩
    intro q hq
    exact absurd hq (by simp)
  | some nIdx =>
    dsimp only
    have hnmem : nIdx ∈ neighborsOf w h cur :=
      List.mem_filterMap.mpr ⟨d, hd, hcand⟩
    have hnlt : nIdx < w * h := mem_neighborsOf_lt w h cur nIdx hnmem
    by_cases hcond : t.visited nIdx = false ∧ labels nIdx = ci
    · rw [if_pos hcond]
      have hfresh0 : vis0 nIdx = false := by
        rcases Bool.eq_false_or_eq_true (vis0 nIdx) with hf | hf
        · exact absurd ((hB1 nIdx).mpr (Or.inl hf)) (by rw [hcond.1]; simp)
        · exact hf
      have hnotq : nIdx ∉ t.queue := by
        intro hmem
        exact absurd ((hB1 nIdx).mpr (Or.inr hmem)) (by rw [hcond.1]; simp)
      obtain ⟨ys, hys⟩ := List.head?_eq_some_iff.mp hB6
      refine ⟨⟨?_, ?_, ?_, ?_, ?_, ?_, ?_, ?_, ?_⟩, rfl, ⟨[nIdx], rfl⟩,
        ?_, ?_, ?_⟩
      · intro p
        dsimp only
        by_cases hpn : p = nIdx
        · subst hpn
          simp only [if_pos rfl, List.mem_append, List.mem_singleton]
          exact ⟨fun _ => Or.inr (Or.inr trivial), fun _ => rfl⟩
        · rw [if_neg hpn, hB1 p]
          simp only [List.mem_append, List.mem_singleton]
          constructor
          · rintro (hp | hp)
            · exact Or.inl hp
            · exact Or.inr (Or.inl hp)
          · rintro (hp | hp | hp)
            · exact Or.inl hp
            · exact Or.inr hp
            · exact absurd hp hpn
      · intro p hp
        rcases List.mem_append.mp hp with hp | hp
        · exact hB2 p hp
        · rw [List.mem_singleton.mp hp]
          exact hcond.2
      · intro p hp
        rcases List.mem_append.mp hp with hp | hp
        · exact hB3 p hp
        · rw [List.mem_singleton.mp hp]
          exact hnlt
      · intro p hp
        rcases List.mem_append.mp hp with hp | hp
        · exact hB4 p hp
        · rw [List.mem_singleton.mp hp]
          exact hfresh0
      · dsimp only
        rw [List.length_append]
        omega
      · dsimp only
        rw [hys]
        rfl
      · intro i hi q hq hlq
        dsimp only at hi hq ⊢
        have hilen : i < t.queue.length := by omega
        rw [List.getD_append _ _ _ _ hilen] at hq
        have := hB7 i hi q hq hlq
        by_cases hqn : q = nIdx
        · rw [if_pos hqn]
        · rw [if_neg hqn]
          exact this
      · intro p hp
        rcases List.mem_append.mp hp with hp | hp
        · exact hB8 p hp
        · rw [List.mem_singleton.mp hp]
          refine Reach.step hcur hnmem ?_
          rw [hcond.2, hci]
      · dsimp only
        rw [hB9]
      · intro p hp
        dsimp only
        by_cases hpn : p = nIdx
        · rw [if_pos hpn]
        · rw [if_neg hpn]
          exact hp
      · dsimp only
        rw [List.length_append, List.length_singleton]
        have := uCount_mark w h t.visited nIdx hnlt hcond.1
        omega
      · intro q hq hlq
        rw [Option.some.injEq] at hq
        subst hq
        dsimp only
        rw [if_pos rfl]
    · rw [if_neg hcond]
      refine ⟨⟨hB1, hB2, hB3, hB4, hB5, hB6, hB7, hB8, hB9⟩, rfl,
        ⟨[], (List.append_nil _).symm⟩, fun p hp => hp, rfl, ?_⟩
      intro q hq hlq
      rw [Option.some.injEq] at hq
      subst hq
      rcases Bool.eq_false_or_eq_true (t.visited nIdx) with hf | hf
      · exact hf
      · exact absurd ⟨hf, hlq⟩ hcond


/-- Helper: folding neighbor attempts over a direction list preserves the BFS
invariant and leaves every same-labeled candidate of the list visited. -/
theorem tryNeighbor_fold_spec (labels : Nat → Int) (w h : Nat) (ci : Int)
    (vis0 : Nat → Bool) (seed cur : Nat)
    (hcur : Reach labels w h seed cur) (hci : ci = labels seed) :
    ∀ (ds : List (Int × Int)), (∀ d ∈ ds, d ∈ dirs) → ∀ (t : BfsState),
      BfsInv labels w h ci vis0 seed t →
      BfsInv labels w h ci vis0 seed (ds.foldl
        (fun st d => tryNeighbor labels w h ci (cur % w) (cur / w) d st) t) ∧
      (ds.foldl (fun st d =>
          tryNeighbor labels w h ci (cur % w) (cur / w) d st) t).head
        = t.head ∧
      (∃ ext, (ds.foldl (fun st d =>
          tryNeighbor labels w h ci (cur % w) (cur / w) d st) t).queue
        = t.queue ++ ext) ∧
      (∀ p, t.visited p = true → (ds.foldl (fun st d =>
          tryNeighbor labels w h ci (cur % w) (cur / w) d st) t).visited p
        = true) ∧
      (uCount w h (ds.foldl (fun st d =>
            tryNeighbor labels w h ci (cur % w) (cur / w) d st) t).visited
          + (ds.foldl (fun st d =>
            tryNeighbor labels w h ci (cur % w) (cur / w) d st) t).queue.length
        = uCount w h t.visited + t.queue.length) ∧
      (∀ d ∈ ds, ∀ q, nbrCand w h cur d = some q → labels q = ci →
        (ds.foldl (fun st d =>
          tryNeighbor labels w h ci (cur % w) (cur / w) d st) t).visited q
          = true) := by
  intro ds
  induction ds with
  | nil =>
    intro _ t hinv
    exact ⟨hinv, rfl, ⟨[], (List.append_nil _).symm⟩, fun p hp => hp, rfl,
      fun d hd => absurd hd (List.not_mem_nil d)⟩
  | cons d rest ih =>
    intro hds t hinv
    obtain ⟨hinv1, hhead1, ⟨ext1, hext1⟩, hmono1, hsum1, hens1⟩ :=
      tryNeighbor_spec labels w h ci vis0 seed cur d t
        (hds d (List.mem_cons_self d rest)) hcur hci hinv
    obtain ⟨hinv2, hhead2, ⟨ext2, hext2⟩, hmono2, hsum2, hens2⟩ :=
      ih (fun e he => hds e (List.mem_cons_of_mem d he)) _ hinv1
    rw [List.foldl_cons]
    refine ⟨hinv2, by rw [hhead2, hhead1], ⟨ext1 ++ ext2, ?_⟩,
      fun p hp => hmono2 p (hmono1 p hp), by rw [hsum2, hsum1], ?_⟩
    · rw [hext2, hext1, List.append_assoc]
    · intro e he q hq hlq
      rcases List.mem_cons.mp he with rfl | hre
      · exact hmono2 q (hens1 q hq hlq)
      · exact hens2 e hre q hq hlq

/-- Helper: neighbor attempts neither read nor write the loop head. -/
theorem tryNeighbor_head_set (labels : Nat → Int) (w h : Nat) (ci : Int)
    (cx cy : Nat) (d : Int × Int) (s : BfsState) (n : Nat) :
    tryNeighbor labels w h ci cx cy d { s with head := n }
      = { tryNeighbor labels w h ci cx cy d s with head := n } := by
  simp only [tryNeighbor]
  split_ifs <;> rfl

/-- Helper: the whole neighbor fold commutes with setting the loop head. -/
theorem foldl_tryNeighbor_head (labels : Nat → Int) (w h : Nat) (ci : Int)
    (cx cy : Nat) (ds : List (Int × Int)) (s : BfsState) (n : Nat) :
    ds.foldl (fun st d => tryNeighbor labels w h ci cx cy d st)
        { s with head := n }
      = { ds.foldl (fun st d => tryNeighbor labels w h ci cx cy d st) s with
          head := n } := by
  induction ds generalizing s with
  | nil => rfl
  | cons d rest ih =>
    rw [List.foldl_cons, List.foldl_cons, tryNeighbor_head_set, ih]

/-- Helper: one while-loop iteration preserves the BFS invariant, advances the
head by one, and keeps `unvisited + queue length` constant. -/
theorem bfsProcess_spec (labels : Nat → Int) (w h : Nat) (ci : Int)
    (vis0 : Nat → Bool) (seed : Nat) (s : BfsState)
    (hinv : BfsInv labels w h ci vis0 seed s)
    (hlt : s.head < s.queue.length) (hci : ci = labels seed) :
    BfsInv labels w h ci vis0 seed (bfsProcess labels w h ci s) ∧
    (bfsProcess labels w h ci s).head = s.head + 1 ∧
    uCount w h (bfsProcess labels w h ci s).visited
        + (bfsProcess labels w h ci s).queue.length
      = uCount w h s.visited + s.queue.length := by
  have hsome : s.queue.get? s.head = some (s.queue.getD s.head 0) := by
    rw [List.get?_eq_getElem?, List.getElem?_eq_getElem hlt,
      List.getD_eq_getElem _ _ hlt]
  have hcurmem : s.queue.getD s.head 0 ∈ s.queue := by
    rw [List.getD_eq_getElem _ _ hlt]
    exact List.getElem_mem hlt
  have hcur : Reach labels w h seed (s.queue.getD s.head 0) :=
    hinv.2.2.2.2.2.2.2.1 _ hcurmem
  have hred : bfsProcess labels w h ci s
      = { dirs.foldl (fun st d => tryNeighbor labels w h ci
            (s.queue.getD s.head 0 % w) (s.queue.getD s.head 0 / w) d st) s with
          head := s.head + 1 } := by
    rw [bfsProcess, hsome]
    exact foldl_tryNeighbor_head labels w h ci _ _ dirs s (s.head + 1)
  obtain ⟨hinvr, hheadr, ⟨ext, hext⟩, hmonor, hsumr, hensr⟩ :=
    tryNeighbor_fold_spec labels w h ci vis0 seed (s.queue.getD s.head 0)
      hcur hci dirs (fun d hd => hd) s hinv
  obtain ⟨rB1, rB2, rB3, rB4, rB5, rB6, rB7, rB8, rB9⟩ := hinvr
  rw [hred]
  refine ⟨⟨rB1, rB2, rB3, rB4, ?_, rB6, ?_, rB8, rB9⟩, rfl, ?_⟩
  · dsimp only
    rw [hext, List.length_append]
    omega
  · intro i hi q hq hlq
    dsimp only at hi hq ⊢
    rcases Nat.lt_or_ge i s.head with hio | hio
    · exact rB7 i (by omega) q hq hlq
    · have hieq : i = s.head := by omega
      subst hieq
      rw [hext, List.getD_append _ _ _ _ hlt] at hq
      rcases List.mem_filterMap.mp hq with ⟨d, hd, hcand⟩
      exact hensr d hd q hcand hlq
  · dsimp only
    omega

/-- Helper: with enough fuel the BFS loop preserves the invariant and reaches
the exhausted state (`head ≥ queue.length`): `unvisited + queue length - head`
strictly decreases each iteration. -/
theorem bfsLoop_spec (labels : Nat → Int) (w h : Nat) (ci : Int)
    (vis0 : Nat → Bool) (seed : Nat) (hci : ci = labels seed) :
    ∀ (fuel : Nat) (s : BfsState), BfsInv labels w h ci vis0 seed s →
      uCount w h s.visited + s.queue.length ≤ fuel + s.head →
      BfsInv labels w h ci vis0 seed (bfsLoop labels w h ci fuel s) ∧
      ¬ ((bfsLoop labels w h ci fuel s).head
          < (bfsLoop labels w h ci fuel s).queue.length) := by
  intro fuel
  induction fuel with
  | zero =>
    intro s hinv hm
    have hb5 := hinv.2.2.2.2.1
    refine ⟨hinv, ?_⟩
    simp only [bfsLoop]
    omega
  | succ n ih =>
    intro s hinv hm
    rw [bfsLoop]
    by_cases hlt : s.head < s.queue.length
    · rw [if_pos hlt]
      obtain ⟨hinvp, hheadp, hsump⟩ :=
        bfsProcess_spec labels w h ci vis0 seed s hinv hlt hci
      exact ih _ hinvp (by omega)
    · rw [if_neg hlt]
      exact ⟨hinv, hlt⟩

/-- Helper: when the BFS has drained its queue and the starting visitation set
is closed under same-label adjacency and misses the seed, the queue contains
the seed's entire connected component. -/
theorem bfs_complete (labels : Nat → Int) (w h : Nat) (ci : Int)
    (vis0 : Nat → Bool) (seed : Nat) (s : BfsState)
    (hinv : BfsInv labels w h ci vis0 seed s)
    (hdone : ¬ s.head < s.queue.length)
    (hcl : ∀ p q', vis0 p = true → q' ∈ neighborsOf w h p →
      labels q' = labels p → vis0 q' = true)
    (hseed0 : vis0 seed = false) (hslt : seed < w * h)
    (hci : ci = labels seed) :
    ∀ q, Reach labels w h seed q → q ∈ s.queue := by
  obtain ⟨hB1, hB2, hB3, hB4, hB5, hB6, hB7, hB8, hB9⟩ := hinv
  intro q hr
  induction hr with
  | refl =>
    obtain ⟨ys, hys⟩ := List.head?_eq_some_iff.mp hB6
    rw [hys]
    exact List.mem_cons_self _ _
  | step hp hn hl ihp =>
    obtain ⟨i, hi, hieq⟩ := List.getElem_of_mem ihp
    have hgd : s.queue.getD i 0 = _ := List.getD_eq_getElem _ _ hi
    have hvq := hB7 i (by omega) _ (by rw [hgd, hieq]; exact hn)
      (by rw [hl, ← hci])
    rcases (hB1 _).mp hvq with hv0 | hmem
    · exact absurd (Reach_back vis0 hcl hslt (Reach.step hp hn hl) hv0)
        (by rw [hseed0]; simp)
    · exact hmem


/-- Helper: one raster-scan step preserves the scan invariant, advancing the
processed bound by one. -/
theorem scanStep_spec (labels : Nat → Int) (w h minArea : Nat)
    (pal0 : List PaletteColor) (n : Nat) (st : ScanState) (hn : n < w * h)
    (hinv : ScanInv labels w h minArea pal0 n st) :
    ScanInv labels w h minArea pal0 (n + 1) (scanStep labels w h minArea st n) := by
  obtain ⟨S1, S2, S3, S4, S5, S6, S7, S8⟩ := hinv
  by_cases hskip : st.visited n = true ∨ labels n = -1
  · rw [scanStep, if_pos hskip]
    refine ⟨S1, ?_, ?_, fun rec hrec => by have := S4 rec hrec; omega,
      S5, S6, S7, S8⟩
    · intro j hj
      rcases Nat.lt_or_ge j n with hjn | hjn
      · exact S2 j hjn
      · have hjeq : j = n := by omega
        subst hjeq
        exact hskip
    · intro rec hrec
      obtain ⟨seed, ha, hb, hc, hd, he, hf, hg, hh, hi, hj, hk⟩ := S3 rec hrec
      exact ⟨seed, ha, by omega, hc, hd, he, hf, hg, hh, hi, hj, hk⟩
  · rw [scanStep, if_neg hskip]
    obtain ⟨hnv, hns⟩ := not_or.mp hskip
    have hnv' : st.visited n = false := by
      rcases Bool.eq_false_or_eq_true (st.visited n) with hf | hf
      · exact absurd hf hnv
      · exact hf
    have hs0inv : BfsInv labels w h (labels n) st.visited n
        { visited := fun i => if i = n then true else st.visited i,
          queue := [n], pixels := [n], head := 0 } := by
      refine ⟨?_, ?_, ?_, ?_, by simp, rfl, ?_, ?_, rfl⟩
      · intro p
        dsimp only
        by_cases hpn : p = n
        · subst hpn
          simp
        · rw [if_neg hpn]
          simp [hpn]
      · intro p hp
        rw [List.mem_singleton.mp hp]
      · intro p hp
        rw [List.mem_singleton.mp hp]
        exact hn
      · intro p hp
        rw [List.mem_singleton.mp hp]
        exact hnv'
      · intro i hi
        dsimp only at hi
        omega
      · intro p hp
        rw [List.mem_singleton.mp hp]
        exact Reach.refl
    obtain ⟨hinvr, hdone⟩ := bfsLoop_spec labels w h (labels n) st.visited n
      rfl (w * h + 1)
      { visited := fun i => if i = n then true else st.visited i,
        queue := [n], pixels := [n], head := 0 } hs0inv
      (by
        have := uCount_le w h (fun i => if i = n then true else st.visited i)
        simp only [List.length_singleton]
        omega)
    obtain ⟨rB1, rB2, rB3, rB4, rB5, rB6, rB7, rB8, rB9⟩ := hinvr
    set r := bfsLoop labels w h (labels n) (w * h + 1)
      { visited := fun i => if i = n then true else st.visited i,
        queue := [n], pixels := [n], head := 0 } with hrdef
    have hcomp : ∀ q, Reach labels w h n q → q ∈ r.queue :=
      bfs_complete labels w h (labels n) st.visited n r
        ⟨rB1, rB2, rB3, rB4, rB5, rB6, rB7, rB8, rB9⟩ hdone S1 hnv' hn rfl
    have hqiff : ∀ q, q ∈ r.queue ↔ Reach labels w h n q :=
      fun q => ⟨rB8 q, hcomp q⟩
    have hmono : ∀ p, st.visited p = true → r.visited p = true :=
      fun p hp => (rB1 p).mpr (Or.inl hp)
    have hclr : ∀ p q, r.visited p = true → q ∈ neighborsOf w h p →
        labels q = labels p → r.visited q = true := by
      intro p q hp hnb hlab
      rcases (rB1 p).mp hp with hv0 | hmem
      · exact hmono q (S1 p q hv0 hnb hlab)
      · obtain ⟨i, hi, hieq⟩ := List.getElem_of_mem hmem
        refine rB7 i (by omega) q ?_ ?_
        · rw [List.getD_eq_getElem _ _ hi, hieq]
          exact hnb
        · rw [hlab]
          exact rB2 p hmem
    have hqmin : ∀ q ∈ r.queue, n ≤ q := by
      intro q hq
      by_contra hql
      have hqn : q < n := by omega
      have hlq : labels q = labels n := rB2 q hq
      rcases S2 q hqn with hv | hs
      · exact absurd (Reach_back st.visited S1 hn (rB8 q hq) hv)
          (by rw [hnv']; simp)
      · exact hns (hlq ▸ hs)
    have hS2' : ∀ j < n + 1, r.visited j = true ∨ labels j = -1 := by
      intro j hj
      rcases Nat.lt_or_ge j n with hjn | hjn
      · rcases S2 j hjn with hv | hs
        · exact Or.inl (hmono j hv)
        · exact Or.inr hs
      · have hjeq : j = n := by omega
        subst hjeq
        refine Or.inl ((rB1 j).mpr (Or.inr ?_))
        obtain ⟨ys, hys⟩ := List.head?_eq_some_iff.mp rB6
        rw [hys]
        exact List.mem_cons_self _ _
    have hheadn : r.pixels.headD 0 = n := by
      rw [List.headD_eq_head?, rB9, rB6]
      rfl
    by_cases hsz : r.pixels.length < minArea
    · rw [if_pos hsz]
      refine ⟨hclr, hS2', ?_, fun rec hrec => by have := S4 rec hrec; omega,
        S5, S6, S7, S8⟩
      intro rec hrec
      obtain ⟨seed, ha, hb, hc, hd, he, hf, hg, hh, hi, hj, hk⟩ := S3 rec hrec
      exact ⟨seed, ha, by omega, hc, hd, he,
        fun q hq => hmono q (hf q hq), hg, hh, hi, hj, hk⟩
    · rw [if_neg hsz]
      have hS3new : ∀ q ∈ r.pixels, r.visited q = true := by
        intro q hq
        rw [rB9] at hq
        exact (rB1 q).mpr (Or.inr hq)
      have hfresh : ∀ q ∈ r.pixels, st.visited q = false := by
        intro q hq
        rw [rB9] at hq
        exact rB4 q hq
      have hcid : ((st.palette.getD (labels n).toNat dfltPC).id)
          = (pal0.getD (labels n).toNat dfltPC).id := by
        by_cases hlt : (labels n).toNat < pal0.length
        · exact (S8 _ hlt).1
        · have e1 : st.palette.getD (labels n).toNat dfltPC = dfltPC :=
            List.getD_eq_default _ _ (by rw [S7]; omega)
          have e2 : pal0.getD (labels n).toNat dfltPC = dfltPC :=
            List.getD_eq_default _ _ (by omega)
          rw [e1, e2]
      refine ⟨hclr, hS2', ?_, ?_, ?_, ?_, ?_, ?_⟩
      · intro rec hrec
        rcases List.mem_append.mp hrec with hold | hnew
        · obtain ⟨seed, ha, hb, hc, hd, he, hf, hg, hh, hi, hj, hk⟩ :=
            S3 rec hold
          exact ⟨seed, ha, by omega, hc, hd, he,
            fun q hq => hmono q (hf q hq), hg, hh, hi, hj, hk⟩
        · rw [List.mem_singleton.mp hnew]
          refine ⟨n, ?_, by omega, hns, ?_, ?_, hS3new, ?_, rfl, hcid,
            rfl, by dsimp only; rw [← hrdef]; omega⟩
          · rw [rB9]
            exact rB6
          · intro q
            rw [rB9]
            exact hqiff q
          · intro q hq
            rw [rB9] at hq
            exact hqmin q hq
          · intro q hq
            rw [rB9] at hq
            rw [rB2 q hq]
      · intro rec hrec
        rcases List.mem_append.mp hrec with hold | hnew
        · have := S4 rec hold
          omega
        · rw [List.mem_singleton.mp hnew]
          dsimp only
          rw [hheadn]
          omega
      · rw [List.pairwise_append]
        refine ⟨S5, List.pairwise_singleton _ _, ?_⟩
        intro a ha b hb
        rw [List.mem_singleton.mp hb]
        dsimp only
        rw [hheadn]
        exact S4 a ha
      · rw [List.pairwise_append]
        refine ⟨S6, List.pairwise_singleton _ _, ?_⟩
        intro a ha b hb p hpa
        rw [List.mem_singleton.mp hb]
        dsimp only
        intro hpb
        obtain ⟨seed, _, _, _, _, _, hf, _, _, _, _, _⟩ := S3 a ha
        have h1 := hf p hpa
        have h2 := hfresh p hpb
        rw [h1] at h2
        exact Bool.noConfusion h2
      · rw [List.length_set]
        exact S7
      · intro j hj
        obtain ⟨h8a, h8b, h8c, h8d, h8e, h8f⟩ := S8 j hj
        have hjlen : j < st.palette.length := by rw [S7]; exact hj
        by_cases hjc : (labels n).toNat = j
        · have hclen : (labels n).toNat < st.palette.length := by omega
          have hset : (st.palette.set (labels n).toNat
              { st.palette.getD (labels n).toNat dfltPC with
                count := (st.palette.getD (labels n).toNat dfltPC).count + 1 }).getD
                j dfltPC
              = { st.palette.getD (labels n).toNat dfltPC with
                  count := (st.palette.getD (labels n).toNat dfltPC).count + 1 } := by
            subst hjc
            rw [List.getD_eq_getElem _ _ (by rwa [List.length_set]),
              List.getElem_set_self]
          rw [hset]
          subst hjc
          refine ⟨h8a, h8b, h8c, h8d, h8e, ?_⟩
          dsimp only
          rw [List.filter_append, List.length_append, h8f]
          have : (List.filter (fun rec => rec.cIdx == (labels n).toNat)
              [(⟨{ path := traceRegionBoundary r.pixels w h,
                   colorId := (st.palette.getD (labels n).toNat dfltPC).id,
                   labelPointX := (calculateLabelPoint r.pixels w).1,
                   labelPointY := (calculateLabelPoint r.pixels w).2,
                   area := r.pixels.length },
                 r.pixels, (labels n).toNat⟩ : RegionRec)]).length = 1 := by
            simp
          rw [this]
          omega
        · have hset : (st.palette.set (labels n).toNat
              { st.palette.getD (labels n).toNat dfltPC with
                count := (st.palette.getD (labels n).toNat dfltPC).count + 1 }).getD
                j dfltPC
              = st.palette.getD j dfltPC := by
            rw [List.getD_eq_getElem _ _ (by rwa [List.length_set]),
              List.getElem_set_ne (fun hcon => hjc hcon),
              List.getD_eq_getElem _ _ hjlen]
          rw [hset]
          refine ⟨h8a, h8b, h8c, h8d, h8e, ?_⟩
          rw [List.filter_append, List.length_append, h8f]
          have : (List.filter (fun rec => rec.cIdx == j)
              [(⟨{ path := traceRegionBoundary r.pixels w h,
                   colorId := (st.palette.getD (labels n).toNat dfltPC).id,
                   labelPointX := (calculateLabelPoint r.pixels w).1,
                   labelPointY := (calculateLabelPoint r.pixels w).2,
                   area := r.pixels.length },
                 r.pixels, (labels n).toNat⟩ : RegionRec)]).length = 0 := by
            simp [hjc]
          rw [this]
          omega


/-- Helper: the scan invariant propagates along any raster segment. -/
theorem scanFold_spec (labels : Nat → Int) (w h minArea : Nat)
    (pal0 : List PaletteColor) :
    ∀ (m n : Nat) (st : ScanState), n + m ≤ w * h →
      ScanInv labels w h minArea pal0 n st →
      ScanInv labels w h minArea pal0 (n + m)
        ((List.range' n m).foldl (scanStep labels w h minArea) st) := by
  intro m
  induction m with
  | zero =>
    intro n st _ hinv
    exact hinv
  | succ k ih =>
    intro n st hle hinv
    rw [List.range'_succ, List.foldl_cons]
    have h1 := scanStep_spec labels w h minArea pal0 n st (by omega) hinv
    have h2 := ih (n + 1) _ (by omega) h1
    have he : n + (k + 1) = n + 1 + k := by omega
    rw [he]
    exact h2

/-- Helper: the scan invariant holds of the full extraction result. -/
theorem extractRegions_spec (labels : Nat → Int) (w h minArea : Nat)
    (pal0 : List PaletteColor) :
    ScanInv labels w h minArea pal0 (w * h)
      (extractRegions labels w h minArea pal0) := by
  rw [extractRegions, List.range_eq_range']
  have h0 : ScanInv labels w h minArea pal0 0
      { visited := fun _ => false, palette := pal0, regions := [] } := by
    refine ⟨?_, ?_, ?_, ?_, List.Pairwise.nil, List.Pairwise.nil, rfl, ?_⟩
    · intro p q hp
      exact absurd hp (by simp)
    · intro j hj
      omega
    · intro rec hrec
      exact absurd hrec (List.not_mem_nil _)
    · intro rec hrec
      exact absurd hrec (List.not_mem_nil _)
    · intro j hj
      exact ⟨rfl, rfl, rfl, rfl, rfl, by simp⟩
  have hall := scanFold_spec labels w h minArea pal0 (w * h) 0
    { visited := fun _ => false, palette := pal0, regions := [] }
    (by omega) h0
  simpa using hall

/--
C1: for every label map, the pixel lists of the regions emitted by the
extraction scan are pairwise disjoint, and no emitted region contains a pixel
whose label is the sentinel `-1`.
-/
theorem regions_partition (labels : Nat → Int) (width height minArea : Nat)
    (pal : List PaletteColor) :
    (extractRegions labels width height minArea pal).regions.Pairwise
      (fun a b => ∀ p ∈ a.pixels, p ∉ b.pixels) ∧
    ∀ rec ∈ (extractRegions labels width height minArea pal).regions,
      ∀ p ∈ rec.pixels, labels p ≠ -1 := by
  obtain ⟨S1, S2, S3, S4, S5, S6, S7, S8⟩ :=
    extractRegions_spec labels width height minArea pal
  refine ⟨S6, ?_⟩
  intro rec hrec p hp
  obtain ⟨seed, ha, hb, hc, hd, he, hf, hg, hh, hi, hj, hk⟩ := S3 rec hrec
  rw [hg p hp]
  exact hc

/-- Witness for `regions_partition` at a concrete 2×2 label map. -/
theorem regions_partition_witness :
    (extractRegions wLabels 2 2 1 []).regions.Pairwise
      (fun a b => ∀ p ∈ a.pixels, p ∉ b.pixels) ∧
    ∀ rec ∈ (extractRegions wLabels 2 2 1 []).regions,
      ∀ p ∈ rec.pixels, wLabels p ≠ -1 :=
  regions_partition wLabels 2 2 1 []

/--
C10: every region emitted by the extraction scan has its seed — the smallest
row-major linear index of its connected component — as the first element of
its pixel list, its pixel list is exactly that component, and the seeds
strictly increase along the emitted region list.
-/
theorem regions_seed_ordering (labels : Nat → Int)
    (width height minArea : Nat) (pal : List PaletteColor) :
    (∀ rec ∈ (extractRegions labels width height minArea pal).regions,
      ∃ seed, rec.pixels.head? = some seed ∧
        (∀ q, q ∈ rec.pixels ↔ Reach labels width height seed q) ∧
        (∀ q, Reach labels width height seed q → seed ≤ q)) ∧
    (extractRegions labels width height minArea pal).regions.Pairwise
      (fun a b => a.pixels.headD 0 < b.pixels.headD 0) := by
  obtain ⟨S1, S2, S3, S4, S5, S6, S7, S8⟩ :=
    extractRegions_spec labels width height minArea pal
  refine ⟨?_, S5⟩
  intro rec hrec
  obtain ⟨seed, ha, hb, hc, hd, he, hf, hg, hh, hi, hj, hk⟩ := S3 rec hrec
  exact ⟨seed, ha, hd, fun q hq => he q ((hd q).mpr hq)⟩

/-- Witness for `regions_seed_ordering` at a concrete 2×2 label map. -/
theorem regions_seed_ordering_witness :
    (∀ rec ∈ (extractRegions wLabels 2 2 1 []).regions,
      ∃ seed, rec.pixels.head? = some seed ∧
        (∀ q, q ∈ rec.pixels ↔ Reach wLabels 2 2 seed q) ∧
        (∀ q, Reach wLabels 2 2 seed q → seed ≤ q)) ∧
    (extractRegions wLabels 2 2 1 []).regions.Pairwise
      (fun a b => a.pixels.headD 0 < b.pixels.headD 0) :=
  regions_seed_ordering wLabels 2 2 1 []

/--
C4: every region emitted by the extraction scan records as its area exactly
the number of pixels its flood fill collected, that area is at least the
minimum-area threshold, and each palette entry's usage count is incremented
exactly once per emitted region charged to it — sub-threshold components
produce no region and touch no usage count.
-/
theorem region_area_consistency (labels : Nat → Int)
    (width height minArea : Nat) (pal : List PaletteColor) :
    (∀ rec ∈ (extractRegions labels width height minArea pal).regions,
      rec.region.area = rec.pixels.length ∧ minArea ≤ rec.region.area) ∧
    (extractRegions labels width height minArea pal).palette.length
      = pal.length ∧
    ∀ j < pal.length,
      ((extractRegions labels width height minArea pal).palette.getD j
          dfltPC).count
        = (pal.getD j dfltPC).count
          + ((extractRegions labels width height minArea pal).regions.filter
              fun rec => rec.cIdx == j).length := by
  obtain ⟨S1, S2, S3, S4, S5, S6, S7, S8⟩ :=
    extractRegions_spec labels width height minArea pal
  refine ⟨?_, S7, fun j hj => (S8 j hj).2.2.2.2.2⟩
  intro rec hrec
  obtain ⟨seed, ha, hb, hc, hd, he, hf, hg, hh, hi, hj, hk⟩ := S3 rec hrec
  rw [hj]
  exact ⟨rfl, hk⟩

/-- Witness for `region_area_consistency` at a concrete 2×2 label map. -/
theorem region_area_consistency_witness :
    ((∀ rec ∈ (extractRegions wLabels 2 2 1 [dfltPC]).regions,
      rec.region.area = rec.pixels.length ∧ 1 ≤ rec.region.area) ∧
    (extractRegions wLabels 2 2 1 [dfltPC]).palette.length
      = [dfltPC].length ∧
    ∀ j < [dfltPC].length,
      ((extractRegions wLabels 2 2 1 [dfltPC]).palette.getD j
          dfltPC).count
        = ([dfltPC].getD j dfltPC).count
          + ((extractRegions wLabels 2 2 1 [dfltPC]).regions.filter
              fun rec => rec.cIdx == j).length) :=
  region_area_consistency wLabels 2 2 1 [dfltPC]


/-- Helper: one k-means pass preserves the number of centroids. -/
theorem kmeansStep_length (data : List RGBA) (cs : List RGB) :
    (kmeansStep data cs).length = cs.length := by
  simp [kmeansStep, updateCentroids]

/-- Helper: refinement preserves the number of centroids. -/
theorem refineCentroids_length (data : List RGBA) (cs0 : List RGB) :
    (refineCentroids data cs0).length = cs0.length := by
  rw [refineCentroids]
  suffices hgen : ∀ (l : List Nat) (cs : List RGB),
      (l.foldl (fun cs _ => kmeansStep data cs) cs).length = cs.length by
    exact hgen _ cs0
  intro l
  induction l with
  | nil => intro cs; rfl
  | cons a t ih =>
    intro cs
    rw [List.foldl_cons, ih, kmeansStep_length]

/-- Helper: the quantized palette has exactly `k` entries. -/
theorem getQuantizedPalette_length (data : List RGBA) (k : Nat)
    (rand : Nat → Nat) : (getQuantizedPalette data k rand).length = k := by
  simp [getQuantizedPalette, refineCentroids_length, initCentroids]

/-- Helper: the quantized palette's ids are exactly `1, …, k` in order. -/
theorem getQuantizedPalette_map_id (data : List RGBA) (k : Nat)
    (rand : Nat → Nat) :
    (getQuantizedPalette data k rand).map PaletteColor.id
      = (List.range k).map (fun j => j + 1) := by
  refine List.ext_getElem ?_ ?_
  · simp [getQuantizedPalette_length]
  · intro n h1 h2
    have hn : n < k := by simpa using h2
    have hlen : n < (refineCentroids data (initCentroids data k rand)).length := by
      rw [refineCentroids_length]
      simpa [initCentroids] using hn
    simp only [getQuantizedPalette, List.getElem_map, List.getElem_enum,
      List.getElem_range]

/-- Helper: the id of the `j`-th quantized palette entry is `j + 1`. -/
theorem getQuantizedPalette_getD_id (data : List RGBA) (k : Nat)
    (rand : Nat → Nat) (j : Nat) (hj : j < k) :
    ((getQuantizedPalette data k rand).getD j dfltPC).id = j + 1 := by
  have hlen : j < (getQuantizedPalette data k rand).length := by
    rw [getQuantizedPalette_length]
    exact hj
  rw [List.getD_eq_getElem _ _ hlen]
  have hlen2 : j < (refineCentroids data (initCentroids data k rand)).length := by
    rw [refineCentroids_length]
    simpa [initCentroids] using hj
  simp only [getQuantizedPalette, List.getElem_map, List.getElem_enum]


/--
C3: in the assembled `ProcessedArt`, every palette entry whose surviving usage
count is zero is absent from the output palette; every region's `colorId` is
the id of an entry present in the output palette; the full palette's ids are
the creation-assigned sequential `1..K`; and the output palette's ids form a
sublist of `1..K` — ids are never reassigned or renumbered by the filtering,
so they may be sparse.
-/
theorem palette_filter_integrity (data : List RGBA) (w h k : Nat)
    (rand : Nat → Nat) (url : String) (hk : 1 ≤ k) :
    (let pal0 := getQuantizedPalette data k rand
     let st := extractRegions
       (fun i => (computeLabels data pal0).getD i (-1)) w h minRegionArea pal0
     let art := processImageCore data w h k rand url
     (∀ c ∈ st.palette, c.count = 0 → c ∉ art.palette) ∧
     (∀ r ∈ art.regions, ∃ c ∈ art.palette, c.id = r.colorId) ∧
     st.palette.map PaletteColor.id = (List.range k).map (fun j => j + 1) ∧
     (art.palette.map PaletteColor.id).Sublist
       ((List.range k).map fun j => j + 1)) := by
  dsimp only
  obtain ⟨S1, S2, S3, S4, S5, S6, S7, S8⟩ :=
    extractRegions_spec
      (fun i => (computeLabels data (getQuantizedPalette data k rand)).getD
        i (-1)) w h minRegionArea (getQuantizedPalette data k rand)
  have hartpal : (processImageCore data w h k rand url).palette
      = (extractRegions
          (fun i => (computeLabels data (getQuantizedPalette data k rand)).getD
            i (-1)) w h minRegionArea
          (getQuantizedPalette data k rand)).palette.filter
        (fun p => p.count > 0) := rfl
  have hartreg : (processImageCore data w h k rand url).regions
      = (extractRegions
          (fun i => (computeLabels data (getQuantizedPalette data k rand)).getD
            i (-1)) w h minRegionArea
          (getQuantizedPalette data k rand)).regions.map RegionRec.region := rfl
  have hp0len : (getQuantizedPalette data k rand).length = k :=
    getQuantizedPalette_length data k rand
  have hstid : (extractRegions
      (fun i => (computeLabels data (getQuantizedPalette data k rand)).getD
        i (-1)) w h minRegionArea
      (getQuantizedPalette data k rand)).palette.map PaletteColor.id
      = (List.range k).map (fun j => j + 1) := by
    refine List.ext_getElem
      (by rw [List.length_map, List.length_map, S7, hp0len,
        List.length_range]) ?_
    intro n h1 h2
    have hnk : n < k := by simpa using h2
    have hnst : n < (extractRegions
        (fun i => (computeLabels data (getQuantizedPalette data k rand)).getD
          i (-1)) w h minRegionArea
        (getQuantizedPalette data k rand)).palette.length := by
      rw [S7, hp0len]
      exact hnk
    rw [List.getElem_map, List.getElem_map, List.getElem_range]
    have h8 := (S8 n (by rw [hp0len]; exact hnk)).1
    rw [List.getD_eq_getElem _ _ hnst,
      List.getD_eq_getElem _ _ (by rw [hp0len]; exact hnk)] at h8
    rw [h8]
    have hqid := getQuantizedPalette_getD_id data k rand n hnk
    rw [List.getD_eq_getElem _ _ (by rw [hp0len]; exact hnk)] at hqid
    exact hqid
  refine ⟨?_, ?_, hstid, ?_⟩
  · intro c hc h0
    rw [hartpal]
    intro hmem
    have hpred := (List.mem_filter.mp hmem).2
    simp only [decide_eq_true_eq] at hpred
    omega
  · intro r hr
    rw [hartreg] at hr
    obtain ⟨rec, hrec, rfl⟩ := List.mem_map.mp hr
    obtain ⟨seed, ha, hb, hc, hd, he, hf, hg, hh, hi, hj, hkk⟩ := S3 rec hrec
    have hcllen : (computeLabels data (getQuantizedPalette data k rand)).length
        = data.length := by
      simp [computeLabels]
    have hseedlt : seed < data.length := by
      by_contra hge
      exact hc (List.getD_eq_default _ _ (by rw [hcllen]; omega))
    have hcl : (computeLabels data (getQuantizedPalette data k rand)).getD
        seed (-1)
        = (if (data.getD seed ⟨0, 0, 0, 0⟩).a < 128 then (-1 : Int)
          else (nearestIdx (data.getD seed ⟨0, 0, 0, 0⟩).rgb
            ((getQuantizedPalette data k rand).map PaletteColor.rgb) : Int)) := by
      rw [List.getD_eq_getElem _ _ (by rw [hcllen]; exact hseedlt)]
      simp only [computeLabels, List.getElem_map]
      rw [List.getD_eq_getElem data ⟨0, 0, 0, 0⟩ hseedlt]
    by_cases htr : (data.getD seed ⟨0, 0, 0, 0⟩).a < 128
    · rw [if_pos htr] at hcl
      exact absurd hcl hc
    · rw [if_neg htr] at hcl
      have hcidx : rec.cIdx = nearestIdx (data.getD seed ⟨0, 0, 0, 0⟩).rgb
          ((getQuantizedPalette data k rand).map PaletteColor.rgb) := by
        rw [hh]
        dsimp only
        rw [hcl, Int.toNat_natCast]
      have hnearlt := nearestIdx_lt (data.getD seed ⟨0, 0, 0, 0⟩).rgb
        ((getQuantizedPalette data k rand).map PaletteColor.rgb)
        (by
          intro hnil
          have hzero : ((getQuantizedPalette data k rand).map
              PaletteColor.rgb).length = 0 := by
            rw [hnil]
            rfl
          rw [List.length_map, hp0len] at hzero
          omega)
      have hcidxk : rec.cIdx < k := by
        rw [List.length_map, hp0len] at hnearlt
        rw [hcidx]
        exact hnearlt
      have hstlen : rec.cIdx < (extractRegions
          (fun i => (computeLabels data (getQuantizedPalette data k rand)).getD
            i (-1)) w h minRegionArea
          (getQuantizedPalette data k rand)).palette.length := by
        rw [S7, hp0len]
        exact hcidxk
      refine ⟨(extractRegions
          (fun i => (computeLabels data (getQuantizedPalette data k rand)).getD
            i (-1)) w h minRegionArea
          (getQuantizedPalette data k rand)).palette.getD rec.cIdx dfltPC,
        ?_, ?_⟩
      · rw [hartpal]
        refine List.mem_filter.mpr ⟨getD_mem_of_lt _ _ _ hstlen, ?_⟩
        have hcount := (S8 rec.cIdx (by rw [hp0len]; exact hcidxk)).2.2.2.2.2
        have hmemfil : rec ∈ (extractRegions
            (fun i => (computeLabels data
              (getQuantizedPalette data k rand)).getD i (-1)) w h
            minRegionArea (getQuantizedPalette data k rand)).regions.filter
            (fun rc => rc.cIdx == rec.cIdx) :=
          List.mem_filter.mpr ⟨hrec, by simp⟩
        have hlenpos := List.length_pos.mpr (List.ne_nil_of_mem hmemfil)
        simp only [decide_eq_true_eq]
        omega
      · have h8a := (S8 rec.cIdx (by rw [hp0len]; exact hcidxk)).1
        rw [h8a, hi]
  · rw [hartpal, ← hstid]
    exact List.Sublist.map PaletteColor.id (List.filter_sublist _)

/-- Witness for `palette_filter_integrity` on a 1×1 one-pixel buffer. -/
theorem palette_filter_integrity_witness :
    (1 ≤ 1) ∧
    (let pal0 := getQuantizedPalette [(⟨9, 8, 7, 255⟩ : RGBA)] 1 (fun _ => 0)
     let st := extractRegions
       (fun i => (computeLabels [(⟨9, 8, 7, 255⟩ : RGBA)] pal0).getD i (-1))
       1 1 minRegionArea pal0
     let art := processImageCore [(⟨9, 8, 7, 255⟩ : RGBA)] 1 1 1
       (fun _ => 0) "u"
     (∀ c ∈ st.palette, c.count = 0 → c ∉ art.palette) ∧
     (∀ r ∈ art.regions, ∃ c ∈ art.palette, c.id = r.colorId) ∧
     st.palette.map PaletteColor.id = (List.range 1).map (fun j => j + 1) ∧
     (art.palette.map PaletteColor.id).Sublist
       ((List.range 1).map fun j => j + 1)) :=
  ⟨by omega,
    palette_filter_integrity [(⟨9, 8, 7, 255⟩ : RGBA)] 1 1 1 (fun _ => 0) "u"
      (by omega)⟩

end Capyg
